import Mathlib

/-!
Verification of the ICS normalization and merge core of the `iso-calendars`
repository.  Python strings are modelled as `List Char`; every definition
below mirrors the corresponding Python function from the sources under
`src/` (the file and line of origin are given in each doc comment).
-/

/-- Characters of a string literal (Python `str` is modelled as `List Char`). -/
def S (s : String) : List Char := s.data

/-- The canonical line separator `CRLF = "\r\n"` (all fetch scripts). -/
def CRLF : List Char := S "\r\n"

/-- The event-block begin marker `BEGIN:VEVENT`. -/
def begMark : List Char := S "BEGIN:VEVENT"

/-- The event-block end marker `END:VEVENT`. -/
def endMark : List Char := S "END:VEVENT"

/-- Python `str.strip()`: remove leading and trailing whitespace. -/
def pyStrip (s : List Char) : List Char :=
  ((s.dropWhile Char.isWhitespace).reverse.dropWhile Char.isWhitespace).reverse

/-- Starting-segment test, Python `str.startswith`. -/
def startsWith : List Char → List Char → Bool
  | [], _ => true
  | _ :: _, [] => false
  | a :: p, b :: s => if a = b then startsWith p s else false

/-- Fuelled worker for `pyReplace`; fuel bounds the number of characters
consumed, so `fuel = s.length` always suffices. -/
def pyReplaceF (pat rep : List Char) : Nat → List Char → List Char
  | _, [] => []
  | 0, s => s
  | fuel + 1, c :: rest =>
    if pat ≠ [] ∧ startsWith pat (c :: rest) then
      rep ++ pyReplaceF pat rep fuel (List.drop (pat.length - 1) rest)
    else
      c :: pyReplaceF pat rep fuel rest

/-- Python `str.replace(pat, rep)`: non-overlapping leftmost replacement of
every occurrence of `pat` by `rep`. -/
def pyReplace (pat rep s : List Char) : List Char := pyReplaceF pat rep s.length s

/-- Python `str.split("\n")`. -/
def splitNL : List Char → List (List Char)
  | [] => [[]]
  | c :: rest =>
    if c = '\n' then [] :: splitNL rest
    else
      match splitNL rest with
      | [] => [[c]]
      | l :: ls => (c :: l) :: ls

/-- The line-ending normalization and split shared by every block scanner:
`ics_text.replace("\r\n", "\n").replace("\r", "\n").split("\n")`
(e.g. `src/fetch_ercot_calendar.py` line 65). -/
def pyLines (text : List Char) : List (List Char) :=
  splitNL (pyReplace (S "\r") (S "\n") (pyReplace (S "\r\n") (S "\n") text))

/-- The all-blocks scanning loop of `extract_vevents`
(`src/fetch_ercot_calendar.py` lines 63-78, identical in
`fetch_nyiso_calendar.py` and `fetch_pjm_calendar.py`): state is the
`inside` flag and the current buffer, emitted blocks are buffers of lines. -/
def scanVE : List (List Char) → Bool → List (List Char) → List (List (List Char))
  | [], _, _ => []
  | line :: rest, inside, buf =>
    let insideB := if pyStrip line = begMark then true else inside
    let bufB := if pyStrip line = begMark then ([] : List (List Char)) else buf
    let buf2 := if insideB then bufB ++ [line] else bufB
    if insideB = true ∧ pyStrip line = endMark then
      buf2 :: scanVE rest false buf2
    else
      scanVE rest insideB buf2

/-- Embedding of `extract_vevents` (`src/fetch_ercot_calendar.py` lines 63-78): extract all
`VEVENT` blocks, each joined with CRLF. -/
def extract_vevents (text : List Char) : List (List Char) :=
  (scanVE (pyLines text) false []).map (List.intercalate CRLF)

/-- The first-block scanning loop of `extract_vevent`
(`src/fetch_caiso_calendar.py` lines 57-69).  Unlike `scanVE`, the buffer is
not reset when a begin-marker line is seen. -/
def scanFirstVE : List (List Char) → Bool → List (List Char) → Option (List (List Char))
  | [], _, _ => none
  | line :: rest, inside, buf =>
    let insideB := if pyStrip line = begMark then true else inside
    let buf2 := if insideB then buf ++ [line] else buf
    if insideB = true ∧ pyStrip line = endMark then
      some buf2
    else
      scanFirstVE rest insideB buf2

/-- Embedding of `extract_vevent` (`src/fetch_caiso_calendar.py` lines 57-69): the first
`VEVENT` block, joined with CRLF, or none. -/
def extract_vevent (text : List Char) : Option (List Char) :=
  (scanFirstVE (pyLines text) false []).map (List.intercalate CRLF)

/-- A line list together with the event blocks it contains, in order: a
well-formed interleaving of junk lines (whose trimmed content is neither
marker) and terminated blocks (begin-marker line, marker-free body lines,
end-marker line).  This is the shape for which the C1 sentences of the spec
("Block round-trip") describe the extraction result. -/
inductive WF : List (List Char) → List (List (List Char)) → Prop where
  | nil : WF [] []
  | junk {l : List Char} {rest : List (List Char)} {bs : List (List (List Char))} :
      pyStrip l ≠ begMark → pyStrip l ≠ endMark → WF rest bs → WF (l :: rest) bs
  | block {l e : List Char} {mid rest : List (List Char)} {bs : List (List (List Char))} :
      pyStrip l = begMark →
      (∀ m ∈ mid, pyStrip m ≠ begMark ∧ pyStrip m ≠ endMark) →
      pyStrip e = endMark →
      WF rest bs →
      WF (l :: (mid ++ e :: rest)) ((l :: (mid ++ [e])) :: bs)

/-- Split `s` at the first occurrence of `pat`: the part before the
occurrence and the part after it, or none if `pat` does not occur.  This is
the scanning step underlying Python `str.split(sep)` and the validator's
regex search. -/
def splitFirst (pat : List Char) : List Char → Option (List Char × List Char)
  | [] => if pat = [] then some ([], []) else none
  | c :: rest =>
    if pat ≠ [] ∧ startsWith pat (c :: rest) then
      some ([], List.drop (pat.length - 1) rest)
    else
      match splitFirst pat rest with
      | some (a, b) => some (c :: a, b)
      | none => none

/-- Fuelled worker for `pySplit`; each recursion consumes at least one
character, so `fuel = s.length + 1` always suffices. -/
def pySplitF (sep : List Char) : Nat → List Char → List (List Char)
  | 0, s => [s]
  | fuel + 1, s =>
    match splitFirst sep s with
    | none => [s]
    | some (a, b) => a :: pySplitF sep fuel b

/-- Python `str.split(sep)` with a non-empty separator. -/
def pySplit (sep s : List Char) : List (List Char) := pySplitF sep (s.length + 1) s

/-- Embedding of `extract_uid` (`src/fetch_nyiso_calendar.py` lines 63-68, identical in
`src/fetch_pjm_calendar.py`): the value of the first `UID:`-prefixed line of
a CRLF-joined block, stripped; none if there is no such line. -/
def extract_uid (ve : List Char) : Option (List Char) :=
  (pySplit CRLF ve).findSome? fun line =>
    if startsWith (S "UID:") line then some (pyStrip (List.drop 4 line)) else none

/-- The deduplication loop of `main` (`src/fetch_nyiso_calendar.py` lines
112-132), abstracted over the ordered (identity, payload) pairs exactly as
the loop processes them: a pair is kept iff its identity is non-empty
(Python truthiness of the UID) and not in the seen-set, in which case the
identity is added to the seen-set.  Returns the kept payloads in order,
together with the final seen-set so batches can be chained. -/
def dedupPairs {α : Type} : List (List Char × α) → List (List Char) → List α × List (List Char)
  | [], seen => ([], seen)
  | (uid, p) :: rest, seen =>
    if uid ≠ [] ∧ uid ∉ seen then
      let r := dedupPairs rest (uid :: seen)
      (p :: r.1, r.2)
    else
      dedupPairs rest seen

/-- The NYISO per-feed loop body itself (`src/fetch_nyiso_calendar.py` lines
121-128): extract the UID of each block and keep the block iff the UID is
present, non-empty and unseen. -/
def nyisoBatch : List (List Char) → List (List Char) → List (List Char) × List (List Char)
  | [], seen => ([], seen)
  | ve :: rest, seen =>
    match extract_uid ve with
    | some uid =>
      if uid ≠ [] ∧ uid ∉ seen then
        let r := nyisoBatch rest (uid :: seen)
        (ve :: r.1, r.2)
      else
        nyisoBatch rest seen
    | none => nyisoBatch rest seen

/-- The spec's wording of the deduplication contract: a pair is kept iff its
identity did not occur in any earlier pair nor in the initial seen list
(`earlier` accumulates every previously processed identity). -/
def specKept {α : Type} : List (List Char × α) → List (List Char) → List α
  | [], _ => []
  | (uid, p) :: rest, earlier =>
    (if uid ≠ [] ∧ uid ∉ earlier then [p] else []) ++ specKept rest (earlier ++ [uid])

/-- Header lines of `build_merged_ics` (`src/fetch_caiso_calendar.py` lines
72-85). -/
def caisoHeaderLines : List (List Char) :=
  [S "BEGIN:VCALENDAR", S "VERSION:2.0", S "PRODID:-//CAISO Calendar Sync//EN",
   S "CALSCALE:GREGORIAN", S "METHOD:PUBLISH", S "X-WR-CALNAME:CAISO Events",
   S "X-WR-TIMEZONE:America/Los_Angeles"]

/-- Embedding of `build_merged_ics` (`src/fetch_caiso_calendar.py` lines 72-85). -/
def caiso_build_merged_ics (vevents : List (List Char)) : List Char :=
  let header := List.intercalate CRLF caisoHeaderLines
  let footer := S "END:VCALENDAR"
  let body := List.intercalate CRLF vevents
  header ++ CRLF ++ body ++ CRLF ++ footer ++ CRLF

/-- Header lines of `build_merged_ics` (`src/fetch_nyiso_calendar.py` lines
84-92). -/
def nyisoHeaderLines : List (List Char) :=
  [S "BEGIN:VCALENDAR", S "VERSION:2.0", S "PRODID:-//NYISO Calendar Sync//EN",
   S "CALSCALE:GREGORIAN", S "METHOD:PUBLISH", S "X-WR-CALNAME:NYISO Events",
   S "X-WR-TIMEZONE:America/New_York"]

/-- Embedding of `build_merged_ics` (`src/fetch_nyiso_calendar.py` lines 84-101); the
`if vtimezone` truthiness test also drops an empty timezone block. -/
def nyiso_build_merged_ics (vevents : List (List Char)) (vtimezone : Option (List Char)) :
    List Char :=
  let header := List.intercalate CRLF nyisoHeaderLines
  let footer := S "END:VCALENDAR"
  let parts :=
    [header] ++
      (match vtimezone with
       | some tz => if tz = [] then [] else [tz]
       | none => []) ++
      vevents ++ [footer]
  List.intercalate CRLF parts ++ CRLF

/-- Embedding of `ics_escape` (`src/fetch_isone_calendar.py` lines 38-40, identical in
`src/fetch_spp_calendar.py` lines 36-38): replace, in this order,
backslash, semicolon, comma, newline. -/
def ics_escape (text : List Char) : List Char :=
  pyReplace (S "\n") (S "\\n")
    (pyReplace (S ",") (S "\\,")
      (pyReplace (S ";") (S "\\;")
        (pyReplace (S "\\") (S "\\\\") text)))

/-- Modelled from the spec: the inverse unescape function referenced by the
"Escaping round-trip property" (not present in the repository sources): a
backslash followed by `n` decodes to a newline, a backslash followed by any
other character decodes to that character, all other characters are kept. -/
def ics_unescape : List Char → List Char
  | [] => []
  | [c] => [c]
  | c :: d :: rest =>
    if c = '\\' then (if d = 'n' then ['\n'] else [d]) ++ ics_unescape rest
    else c :: ics_unescape (d :: rest)

/-- Python `dict.get(key, dflt)` on a JSON object modelled as an association
list of string keys and string values (JSON `null` values are modelled as
absent keys; the source collapses them with `or ""` anyway). -/
def jget (event : List (List Char × List Char)) (key dflt : List Char) : List Char :=
  match event.lookup key with
  | some v => v
  | none => dflt

/-- The ISO-NE site base URL (`src/fetch_isone_calendar.py` line 22). -/
def ISONE_BASE : List Char := S "https://www.iso-ne.com"

/-- The GMT-string conversion of `build_vevent`
(`src/fetch_isone_calendar.py` lines 67-69):
`start_str.replace("-", "").replace(":", "").replace("T", "T") + "Z"`. -/
def isoneDt (s : List Char) : List Char :=
  pyReplace (S "T") (S "T") (pyReplace (S ":") [] (pyReplace (S "-") [] s)) ++ S "Z"

/-- Embedding of `parse_dt` (`src/fetch_spp_calendar.py` lines 41-47):
`dt_str.split(".")[0]` then the separator removals. -/
def parse_dt (s : List Char) : List Char :=
  let s0 := (pySplit (S ".") s).headD []
  pyReplace (S "T") (S "T") (pyReplace (S ":") [] (pyReplace (S "-") [] s0))

/-- Embedding of `build_vevent` (`src/fetch_isone_calendar.py` lines 52-107).  The HTML
reduction `strip_html` and the wall clock `now` (`datetime.now`) are taken
as parameters: they affect only free-text content, never whether a record
is produced. -/
def isone_build_vevent (stripHtml : List Char → List Char) (now : List Char)
    (event : List (List Char × List Char)) : Option (List Char) :=
  let eid := jget event (S "event_id") []
  let title := jget event (S "event_title") (S "ISO-NE Event")
  let start_str := jget event (S "event_start_date_gmt_str") []
  let end_str := jget event (S "event_end_date_gmt_str") []
  let location := jget event (S "location") []
  let contact := jget event (S "contact_name") []
  let contact_email := jget event (S "contact_email") []
  let cancelled := jget event (S "cancelled_flag") (S "N") = S "Y"
  let description_html := jget event (S "event_description") []
  if start_str = [] ∨ eid = [] then none
  else
    let dtstart := isoneDt start_str
    let dtend := if end_str = [] then none else some (isoneDt end_str)
    let plain_desc := stripHtml description_html
    let contact_line := S "Contact: " ++ contact ++
      (if contact_email = [] then [] else S " (" ++ contact_email ++ S ")")
    let desc_parts :=
      (if cancelled then [S "** CANCELLED **"] else []) ++
      (if plain_desc = [] then [] else [plain_desc]) ++
      (if contact = [] then [] else [contact_line]) ++
      [ISONE_BASE ++ S "/event-details?eventId=" ++ eid]
    let summary := if cancelled then S "[CANCELLED] " ++ title else title
    let lines :=
      [S "BEGIN:VEVENT", S "UID:" ++ eid ++ S "@iso-ne.com", S "DTSTAMP:" ++ now,
       S "DTSTART:" ++ dtstart] ++
      (match dtend with | some d => [S "DTEND:" ++ d] | none => []) ++
      [S "SUMMARY:" ++ ics_escape summary] ++
      (if location = [] then [] else [S "LOCATION:" ++ ics_escape location]) ++
      [S "DESCRIPTION:" ++ ics_escape (List.intercalate ['\n'] desc_parts)] ++
      [S "URL:" ++ ISONE_BASE ++ S "/event-details?eventId=" ++ eid, S "END:VEVENT"]
    some (List.intercalate CRLF lines)

/-- The SPP site base URL (`src/fetch_spp_calendar.py` line 20). -/
def SPP_BASE : List Char := S "https://www.spp.org"

/-- Embedding of `build_vevent` (`src/fetch_spp_calendar.py` lines 50-90): `event["id"]`
is a raising lookup, modelled as `Except.error` carrying the missing key
(Python `KeyError`); `datetime.now` is a parameter.  Python's falsy `None`
and `""` for `dtstart`/`dtend` are collapsed into the empty string, which
the source treats identically. -/
def spp_build_vevent (now : List Char) (event : List (List Char × List Char)) :
    Except (List Char) (List Char) :=
  match event.lookup (S "id") with
  | none => Except.error (S "id")
  | some eid =>
    let title := jget event (S "title") (S "SPP Event")
    let alt_title := jget event (S "alternateTitle") []
    let start := jget event (S "start") []
    let endv := jget event (S "end") []
    let location_parts :=
      [jget event (S "location") [], jget event (S "city") [], jget event (S "state") []]
    let location := List.intercalate (S ", ") (location_parts.filter (fun p => p ≠ []))
    let url0 := jget event (S "url") []
    let url := if url0 ≠ [] ∧ ¬startsWith (S "http") url0 then SPP_BASE ++ url0 else url0
    let dtstart := if start = [] then [] else parse_dt start
    let dtend := if endv = [] then [] else parse_dt endv
    if dtstart = [] then Except.ok []
    else
      let lines :=
        [S "BEGIN:VEVENT", S "UID:" ++ eid ++ S "@spp.org", S "DTSTAMP:" ++ now,
         S "DTSTART;TZID=America/Chicago:" ++ dtstart] ++
        (if dtend = [] then [] else [S "DTEND;TZID=America/Chicago:" ++ dtend]) ++
        [S "SUMMARY:" ++ ics_escape title] ++
        (if alt_title ≠ [] ∧ alt_title ≠ title then [S "DESCRIPTION:" ++ ics_escape alt_title]
         else []) ++
        (if location ≠ [] then [S "LOCATION:" ++ ics_escape location] else []) ++
        (if url ≠ [] then [S "URL:" ++ url] else []) ++
        [S "END:VEVENT"]
      Except.ok (List.intercalate CRLF lines)

/-- Lexicographic strict order on strings by code point (Python `<` on
`str`). -/
def lexLt : List Char → List Char → Bool
  | [], [] => false
  | [], _ :: _ => true
  | _ :: _, [] => false
  | a :: s, b :: t => if a < b then true else if a = b then lexLt s t else false

/-- Python `<=` on `str`. -/
def lexLe (a b : List Char) : Bool := lexLt a b || a == b

/-- The anchored regex `DTSTART[^:]*:(\d{8})` of `extract_dtstart_date`
(`src/fetch_pjm_calendar.py` lines 72-78): the line must start with
`DTSTART`, the greedy `[^:]*` runs to the first colon, and the next eight
characters must all be digits; the match yields those eight digits. -/
def matchDtstart (line : List Char) : Option (List Char) :=
  if startsWith (S "DTSTART") line then
    match (List.drop 7 line).dropWhile (fun c => c ≠ ':') with
    | ':' :: tail =>
      let ds := tail.take 8
      if ds.length = 8 ∧ ds.all Char.isDigit then some ds else none
    | _ => none
  else none

/-- Embedding of `extract_dtstart_date` (`src/fetch_pjm_calendar.py` lines 72-78). -/
def extract_dtstart_date (ve : List Char) : Option (List Char) :=
  (pySplit CRLF ve).findSome? matchDtstart

/-- The PJM merge loop of `main` (`src/fetch_pjm_calendar.py` lines
127-140): a block is considered iff its UID is present, non-empty and
unseen; it is then dropped — without registering the UID — when it has a
parseable DTSTART date outside the `lo ≤ d < hi` window; otherwise it is
kept and its UID registered. -/
def pjmLoop (lo hi : List Char) : List (List Char) → List (List Char) →
    List (List Char) × List (List Char)
  | [], seen => ([], seen)
  | ve :: rest, seen =>
    match extract_uid ve with
    | some uid =>
      if uid ≠ [] ∧ uid ∉ seen then
        match extract_dtstart_date ve with
        | some d =>
          if d ≠ [] ∧ ¬(lexLe lo d = true ∧ lexLt d hi = true) then
            pjmLoop lo hi rest seen
          else
            let r := pjmLoop lo hi rest (uid :: seen)
            (ve :: r.1, r.2)
        | none =>
          let r := pjmLoop lo hi rest (uid :: seen)
          (ve :: r.1, r.2)
      else pjmLoop lo hi rest seen
    | none => pjmLoop lo hi rest seen

/-- Fuelled worker for `pyCount`; each match consumes at least one
character, so `fuel = s.length` suffices. -/
def pyCountF (pat : List Char) : Nat → List Char → Nat
  | _, [] => 0
  | 0, _ => 0
  | fuel + 1, c :: rest =>
    if pat ≠ [] ∧ startsWith pat (c :: rest) then
      1 + pyCountF pat fuel (List.drop (pat.length - 1) rest)
    else
      pyCountF pat fuel rest

/-- Python `str.count(pat)`: non-overlapping occurrence count. -/
def pyCount (pat s : List Char) : Nat := pyCountF pat s.length s

/-- Python substring containment `pat in s`. -/
def containsSub (pat : List Char) : List Char → Bool
  | [] => pat.isEmpty
  | c :: rest => startsWith pat (c :: rest) || containsSub pat rest

/-- Python `str.endswith`. -/
def endsWith (p s : List Char) : Bool := startsWith p.reverse s.reverse

/-- Decimal rendering of a count, as Python's f-string does. -/
def natChars (n : Nat) : List Char := (Nat.repr n).data

/-- The issue string `f"VEVENT mismatch: {events} begin vs {events_end} end"`
(`src/validate_feeds.py` line 40). -/
def mismatchMsg (x y : Nat) : List Char :=
  S "VEVENT mismatch: " ++ natChars x ++ S " begin vs " ++ natChars y ++ S " end"

/-- The issue strings `f"{n} events missing DTSTART"` /
`f"{n} events missing SUMMARY"` (`src/validate_feeds.py` lines 42-44). -/
def missingMsg (n : Nat) (field : List Char) : List Char :=
  natChars n ++ S " events missing " ++ field

/-- Fuelled worker for `findBlocks`; each match consumes at least the two
markers, so `fuel = s.length + 1` suffices. -/
def findBlocksF : Nat → List Char → List (List Char)
  | 0, _ => []
  | fuel + 1, s =>
    match splitFirst begMark s with
    | none => []
    | some (_, afterBeg) =>
      match splitFirst endMark afterBeg with
      | none => []
      | some (mid, afterEnd) => (begMark ++ mid ++ endMark) :: findBlocksF fuel afterEnd

/-- The validator's non-greedy DOTALL regex findall
`re.findall(r"BEGIN:VEVENT.*?END:VEVENT", text, re.DOTALL)`
(`src/validate_feeds.py` line 26): each match starts at the next begin
marker and ends at the first end marker after it. -/
def findBlocks (s : List Char) : List (List Char) := findBlocksF (s.length + 1) s

/-- The per-feed validation body (`src/validate_feeds.py` lines 19-46),
applied to the fetched document text: the verdict (`true` = PASS) and the
issue list. -/
def validateFeed (text : List Char) : Bool × List (List Char) :=
  let events := pyCount begMark text
  let events_end := pyCount endMark text
  let stripped := pyStrip text
  let has_vcal_start := startsWith (S "BEGIN:VCALENDAR") stripped
  let has_vcal_end := endsWith (S "END:VCALENDAR") stripped
  let has_version := containsSub (S "VERSION:2.0") text
  let has_prodid := containsSub (S "PRODID:") text
  let vevent_blocks := findBlocks text
  let missing_dtstart := (vevent_blocks.filter (fun v => !containsSub (S "DTSTART") v)).length
  let missing_summary := (vevent_blocks.filter (fun v => !containsSub (S "SUMMARY") v)).length
  let issues :=
    (if has_vcal_start then [] else [S "missing BEGIN:VCALENDAR"]) ++
    (if has_vcal_end then [] else [S "missing END:VCALENDAR"]) ++
    (if has_version then [] else [S "missing VERSION:2.0"]) ++
    (if has_prodid then [] else [S "missing PRODID"]) ++
    (if events = events_end then [] else [mismatchMsg events events_end]) ++
    (if missing_dtstart = 0 then [] else [missingMsg missing_dtstart (S "DTSTART")]) ++
    (if missing_summary = 0 then [] else [missingMsg missing_summary (S "SUMMARY")])
  (issues.isEmpty, issues)

/-- Joining lines each terminated by CRLF in front of a remainder; the
CRLF-structure of `List.intercalate CRLF` used in the C9 proofs. -/
def glueLines (ls : List (List Char)) (z : List Char) : List Char :=
  ls.foldr (fun l acc => l ++ '\r' :: '\n' :: acc) z

/-- Documents (as line lists) in which the marker strings occur only as
whole lines and blocks are properly terminated: junk lines contain neither
marker as a substring, a block is a begin-marker line, substring-marker-free
body lines, and an end-marker line. -/
inductive WFDoc : List (List Char) → List (List (List Char)) → Prop where
  | nil : WFDoc [] []
  | junk {l : List Char} {rest : List (List Char)} {bs : List (List (List Char))} :
      containsSub begMark l = false → containsSub endMark l = false →
      WFDoc rest bs → WFDoc (l :: rest) bs
  | block {mid rest : List (List Char)} {bs : List (List (List Char))} :
      (∀ m ∈ mid, containsSub begMark m = false ∧ containsSub endMark m = false) →
      WFDoc rest bs →
      WFDoc (begMark :: (mid ++ endMark :: rest)) ((begMark :: (mid ++ [endMark])) :: bs)

theorem beg_ne_end : begMark ≠ endMark := by decide

theorem end_ne_beg : endMark ≠ begMark := by decide

/-- From the `inside = false` state the buffer content is irrelevant to the
blocks `scanVE` will emit. -/
theorem scanVE_false_buf (lines : List (List Char)) :
    ∀ b1 b2 : List (List Char), scanVE lines false b1 = scanVE lines false b2 := by
  induction lines with
  | nil => intro _ _; rfl
  | cons l rest ih =>
    intro b1 b2
    by_cases h : pyStrip l = begMark
    · simp [scanVE, h, beg_ne_end]
    · simp only [scanVE]
      simp [h]
      exact ih b1 b2

/-- A scan over lines containing no end-marker line emits no block. -/
theorem scanVE_no_end (lines : List (List Char))
    (h : ∀ t ∈ lines, pyStrip t ≠ endMark) :
    ∀ (inside : Bool) (buf : List (List Char)), scanVE lines inside buf = [] := by
  induction lines with
  | nil => intro _ _; rfl
  | cons l rest ih =>
    intro inside buf
    have hl := h l (by simp)
    have hrest : ∀ t ∈ rest, pyStrip t ≠ endMark := fun t ht => h t (by simp [ht])
    simp only [scanVE]
    simp [hl]
    exact ih hrest _ _

/-- Inside a block, marker-free body lines are appended to the buffer until
the end-marker line closes and emits the block. -/
theorem scanVE_mid (mid : List (List Char))
    (hmid : ∀ m ∈ mid, pyStrip m ≠ begMark ∧ pyStrip m ≠ endMark) :
    ∀ (e : List Char) (rest : List (List Char)) (buf : List (List Char)),
      pyStrip e = endMark →
      scanVE (mid ++ e :: rest) true buf =
        (buf ++ mid ++ [e]) :: scanVE rest false (buf ++ mid ++ [e]) := by
  induction mid with
  | nil =>
    intro e rest buf he
    have henb : pyStrip e ≠ begMark := by rw [he]; exact end_ne_beg
    simp [scanVE, henb, he, end_ne_beg]
  | cons m mid' ih =>
    intro e rest buf he
    have hm := hmid m (by simp)
    have hmid' : ∀ x ∈ mid', pyStrip x ≠ begMark ∧ pyStrip x ≠ endMark :=
      fun x hx => hmid x (by simp [hx])
    have step := ih hmid' e rest (buf ++ [m]) he
    simp only [List.cons_append, scanVE]
    simp [hm.1, hm.2]
    rw [step]
    simp

/-- On a well-formed line list followed by any end-marker-free remainder,
the all-blocks scan returns exactly the well-formed blocks, in order. -/
theorem scanVE_wf_extra {lines : List (List Char)} {bs : List (List (List Char))}
    (hwf : WF lines bs) :
    ∀ (extra : List (List Char)), (∀ t ∈ extra, pyStrip t ≠ endMark) →
      ∀ buf : List (List Char), scanVE (lines ++ extra) false buf = bs := by
  induction hwf with
  | nil =>
    intro extra hextra buf
    exact scanVE_no_end extra hextra false buf
  | junk hb he _ ih =>
    intro extra hextra buf
    simp only [List.cons_append, scanVE]
    simp [hb, he]
    exact ih extra hextra buf
  | @block l e mid rest bs hl hmid he _ ih =>
    intro extra hextra buf
    have hre : (l :: (mid ++ e :: rest)) ++ extra = l :: (mid ++ e :: (rest ++ extra)) := by
      simp
    rw [hre]
    simp only [scanVE]
    simp [hl, beg_ne_end]
    rw [scanVE_mid mid hmid e (rest ++ extra) [l] he]
    rw [scanVE_false_buf (rest ++ extra) ([l] ++ mid ++ [e]) buf, ih extra hextra buf]
    simp

/-- First-block scan over end-marker-free lines returns nothing. -/
theorem scanFirstVE_no_end (lines : List (List Char))
    (h : ∀ t ∈ lines, pyStrip t ≠ endMark) :
    ∀ (inside : Bool) (buf : List (List Char)), scanFirstVE lines inside buf = none := by
  induction lines with
  | nil => intro _ _; rfl
  | cons l rest ih =>
    intro inside buf
    have hl := h l (by simp)
    have hrest : ∀ t ∈ rest, pyStrip t ≠ endMark := fun t ht => h t (by simp [ht])
    simp only [scanFirstVE]
    simp [hl]
    exact ih hrest _ _

/-- Inside a block, the first-block scan returns the buffer extended with the
body and end-marker lines. -/
theorem scanFirstVE_mid (mid : List (List Char))
    (hmid : ∀ m ∈ mid, pyStrip m ≠ begMark ∧ pyStrip m ≠ endMark) :
    ∀ (e : List Char) (rest : List (List Char)) (buf : List (List Char)),
      pyStrip e = endMark →
      scanFirstVE (mid ++ e :: rest) true buf = some (buf ++ mid ++ [e]) := by
  induction mid with
  | nil =>
    intro e rest buf he
    have henb : pyStrip e ≠ begMark := by rw [he]; exact end_ne_beg
    simp [scanFirstVE, henb, he]
  | cons m mid' ih =>
    intro e rest buf he
    have hm := hmid m (by simp)
    have hmid' : ∀ x ∈ mid', pyStrip x ≠ begMark ∧ pyStrip x ≠ endMark :=
      fun x hx => hmid x (by simp [hx])
    have step := ih hmid' e rest (buf ++ [m]) he
    simp only [List.cons_append, scanFirstVE]
    simp [hm.1, hm.2]
    rw [step]
    simp

/-- On a well-formed line list followed by any end-marker-free remainder, the
first-block scan returns the first block or none. -/
theorem scanFirstVE_wf_extra {lines : List (List Char)} {bs : List (List (List Char))}
    (hwf : WF lines bs) :
    ∀ (extra : List (List Char)), (∀ t ∈ extra, pyStrip t ≠ endMark) →
      scanFirstVE (lines ++ extra) false [] = bs.head? := by
  induction hwf with
  | nil =>
    intro extra hextra
    simp [scanFirstVE_no_end extra hextra]
  | junk hb he _ ih =>
    intro extra hextra
    simp only [List.cons_append, scanFirstVE]
    simp [hb, he]
    exact ih extra hextra
  | @block l e mid rest bs hl hmid he _ _ =>
    intro extra hextra
    have h2 : (l :: (mid ++ e :: rest)) ++ extra = l :: (mid ++ e :: (rest ++ extra)) := by
      simp
    rw [h2]
    simp only [scanFirstVE]
    simp [hl, beg_ne_end]
    rw [scanFirstVE_mid mid hmid e (rest ++ extra) [l] he]
    simp

/-- Every block the all-blocks scan emits (from the initial state) begins
with a begin-marker line and ends with an end-marker line. -/
theorem scanVE_shape (lines : List (List Char)) :
    ∀ (inside : Bool) (buf : List (List Char)),
      (inside = true → ∃ h t, buf = h :: t ∧ pyStrip h = begMark) →
      ∀ b ∈ scanVE lines inside buf,
        (∃ h t, b = h :: t ∧ pyStrip h = begMark) ∧
        (∃ g, b.getLast? = some g ∧ pyStrip g = endMark) := by
  induction lines with
  | nil => intro _ _ _ b hb; simp [scanVE] at hb
  | cons l rest ih =>
    intro inside buf hinv b hb
    by_cases hbeg : pyStrip l = begMark
    · simp only [scanVE] at hb
      simp [hbeg, beg_ne_end] at hb
      exact ih true [l] (fun _ => ⟨l, [], rfl, hbeg⟩) b hb
    · cases inside with
      | false =>
        simp only [scanVE] at hb
        simp [hbeg] at hb
        exact ih false buf (by simp) b hb
      | true =>
        obtain ⟨h, t, hbuf, hh⟩ := hinv rfl
        by_cases hend : pyStrip l = endMark
        · simp only [scanVE] at hb
          simp [hbeg, hend] at hb
          rcases hb with hb1 | hb2
          · subst hb1
            refine ⟨⟨h, t ++ [l], by simp [hbuf, end_ne_beg], hh⟩, ⟨l, ?_, hend⟩⟩
            simp [List.getLast?_concat, end_ne_beg]
          · exact ih false (buf ++ [l]) (by simp) b hb2
        · simp only [scanVE] at hb
          simp [hbeg, hend] at hb
          exact ih true (buf ++ [l])
            (fun _ => ⟨h, t ++ [l], by simp [hbuf], hh⟩) b hb

/-- C1: For every input text (after CR/CRLF normalization to lines),
all-blocks extraction returns exactly the terminated event blocks in source
order — one per begin/end-marker pair, each block beginning with its
begin-marker line and ending with its end-marker line; a begin-marker never
followed by an end-marker contributes no block; and first-block extraction
returns the first such terminated block, or none.  The final conjunct ties
the scans to the CRLF-joined `extract_vevents`/`extract_vevent` functions. -/
theorem c1_terminated_blocks :
    (∀ (lines : List (List Char)) (bs : List (List (List Char)))
        (extra : List (List Char)),
      WF lines bs → (∀ t ∈ extra, pyStrip t ≠ endMark) →
      scanVE (lines ++ extra) false [] = bs ∧
      scanFirstVE (lines ++ extra) false [] = bs.head?) ∧
    (∀ (ls : List (List Char)) (b : List (List Char)), b ∈ scanVE ls false [] →
      (∃ h t, b = h :: t ∧ pyStrip h = begMark) ∧
      (∃ g, b.getLast? = some g ∧ pyStrip g = endMark)) ∧
    (∀ text : List Char,
      extract_vevents text = (scanVE (pyLines text) false []).map (List.intercalate CRLF) ∧
      extract_vevent text = (scanFirstVE (pyLines text) false []).map (List.intercalate CRLF)) := by
  refine ⟨fun lines bs extra hwf hextra => ⟨?_, ?_⟩, fun ls b hb => ?_, fun text => ⟨rfl, rfl⟩⟩
  · exact scanVE_wf_extra hwf extra hextra []
  · exact scanFirstVE_wf_extra hwf extra hextra
  · exact scanVE_shape ls false [] (by simp) b hb

/-- Witness for C1 at a concrete input: one junk line, one terminated block,
followed by an unterminated begin-marker. -/
theorem c1_terminated_blocks_witness :
    scanVE ([S "x", S "BEGIN:VEVENT", S "SUMMARY:a", S "END:VEVENT"] ++
        [S "BEGIN:VEVENT", S "DTSTART:1"]) false [] =
      [[S "BEGIN:VEVENT", S "SUMMARY:a", S "END:VEVENT"]] ∧
    scanFirstVE ([S "x", S "BEGIN:VEVENT", S "SUMMARY:a", S "END:VEVENT"] ++
        [S "BEGIN:VEVENT", S "DTSTART:1"]) false [] =
      some [S "BEGIN:VEVENT", S "SUMMARY:a", S "END:VEVENT"] := by
  have hwf : WF [S "x", S "BEGIN:VEVENT", S "SUMMARY:a", S "END:VEVENT"]
      [[S "BEGIN:VEVENT", S "SUMMARY:a", S "END:VEVENT"]] := by
    have h1 : WF ([] : List (List Char)) [] := WF.nil
    have h2 : WF (S "BEGIN:VEVENT" :: ([S "SUMMARY:a"] ++ S "END:VEVENT" :: []))
        ((S "BEGIN:VEVENT" :: ([S "SUMMARY:a"] ++ [S "END:VEVENT"])) :: []) :=
      WF.block (by decide) (by decide) (by decide) h1
    exact WF.junk (by decide) (by decide) h2
  have := c1_terminated_blocks.1 _ _ [S "BEGIN:VEVENT", S "DTSTART:1"] hwf (by decide)
  exact this

/-- The code's seen-set (grown only for kept pairs) decides membership the
same way as the spec's list of all earlier identities, for non-empty
identities. -/
theorem dedupPairs_eq_specKept {α : Type} (pairs : List (List Char × α)) :
    ∀ (seen earlier : List (List Char)),
      (∀ x : List Char, x ≠ [] → (x ∈ seen ↔ x ∈ earlier)) →
      (dedupPairs pairs seen).1 = specKept pairs earlier := by
  induction pairs with
  | nil => intro seen earlier _; rfl
  | cons hd rest ih =>
    obtain ⟨uid, p⟩ := hd
    intro seen earlier hR
    by_cases hu : uid ≠ [] ∧ uid ∉ seen
    · have hu' : uid ≠ [] ∧ uid ∉ earlier :=
        ⟨hu.1, fun hmem => hu.2 ((hR uid hu.1).mpr hmem)⟩
      simp only [dedupPairs, specKept, if_pos hu, if_pos hu', List.singleton_append]
      have hnext : ∀ x : List Char, x ≠ [] → (x ∈ uid :: seen ↔ x ∈ earlier ++ [uid]) := by
        intro x hx
        simp only [List.mem_cons, List.mem_append, List.mem_singleton]
        rw [hR x hx]
        tauto
      simp [ih (uid :: seen) (earlier ++ [uid]) hnext]
    · have hu' : ¬(uid ≠ [] ∧ uid ∉ earlier) := by
        intro hc
        exact hu ⟨hc.1, fun hmem => hc.2 ((hR uid hc.1).mp hmem)⟩
      simp only [dedupPairs, specKept, if_neg hu, if_neg hu', List.nil_append]
      have hnext : ∀ x : List Char, x ≠ [] → (x ∈ seen ↔ x ∈ earlier ++ [uid]) := by
        intro x hx
        simp only [List.mem_append, List.mem_singleton]
        constructor
        · intro hs; exact Or.inl ((hR x hx).mp hs)
        · intro he
          rcases he with h1 | h2
          · exact (hR x hx).mpr h1
          · subst h2
            rcases not_and_or.mp hu with h | h
            · exact absurd hx (by simpa using h)
            · simpa using h
      exact ih seen (earlier ++ [uid]) hnext

/-- Batches processed in sequence with a threaded seen-set behave like one
concatenated batch. -/
theorem dedupPairs_append {α : Type} (b1 b2 : List (List Char × α)) :
    ∀ seen, dedupPairs (b1 ++ b2) seen =
      ((dedupPairs b1 seen).1 ++ (dedupPairs b2 (dedupPairs b1 seen).2).1,
       (dedupPairs b2 (dedupPairs b1 seen).2).2) := by
  induction b1 with
  | nil => intro seen; simp [dedupPairs]
  | cons hd rest ih =>
    obtain ⟨uid, p⟩ := hd
    intro seen
    by_cases hu : uid ≠ [] ∧ uid ∉ seen
    · simp only [List.cons_append, dedupPairs, if_pos hu]
      simp [ih (uid :: seen)]
    · simp only [List.cons_append, dedupPairs, if_neg hu]
      exact ih seen

/-- The NYISO loop is the pair-deduplication applied to (UID, block) pairs
(a missing UID is the empty identity, matching Python truthiness). -/
theorem nyisoBatch_eq_dedupPairs (ves : List (List Char)) :
    ∀ seen, nyisoBatch ves seen =
      dedupPairs (ves.map fun ve => ((extract_uid ve).getD [], ve)) seen := by
  induction ves with
  | nil => intro seen; rfl
  | cons ve rest ih =>
    intro seen
    cases h : extract_uid ve with
    | none => simp [nyisoBatch, h, dedupPairs, ih]
    | some uid =>
      by_cases hu : uid ≠ [] ∧ uid ∉ seen
      · simp [nyisoBatch, h, dedupPairs, hu, ih]
      · simp [nyisoBatch, h, dedupPairs, hu, ih]

/-- C2: deduplication returns the ordered sub-sequence of payloads whose
identity was not seen in any earlier pair (first occurrence wins, order
preserved), the seen-set persists across batches (chained batches equal the
concatenated batch), the NYISO block loop is exactly this pair
deduplication, and the identity sequence [a, b, a, c, b] keeps the payloads
of the first a, the first b, and c, in that order. -/
theorem c2_dedup_first_wins :
    (∀ (α : Type) (pairs : List (List Char × α)) (seen0 : List (List Char)),
       (dedupPairs pairs seen0).1 = specKept pairs seen0) ∧
    (∀ (α : Type) (b1 b2 : List (List Char × α)) (seen : List (List Char)),
       dedupPairs (b1 ++ b2) seen =
         ((dedupPairs b1 seen).1 ++ (dedupPairs b2 (dedupPairs b1 seen).2).1,
          (dedupPairs b2 (dedupPairs b1 seen).2).2)) ∧
    (∀ (ves seen : List (List Char)),
       nyisoBatch ves seen =
         dedupPairs (ves.map fun ve => ((extract_uid ve).getD [], ve)) seen) ∧
    (dedupPairs [(S "a", 0), (S "b", 1), (S "a", 2), (S "c", 3), (S "b", 4)]
        ([] : List (List Char))).1 = [0, 1, 3] := by
  refine ⟨fun α pairs seen0 => ?_, fun α b1 b2 seen => dedupPairs_append b1 b2 seen,
    fun ves seen => nyisoBatch_eq_dedupPairs ves seen, by decide⟩
  exact dedupPairs_eq_specKept pairs seen0 seen0 (fun x _ => Iff.rfl)

theorem pyReplaceF_irrel (pat rep : List Char) :
    ∀ (f1 : Nat) (s : List Char) (f2 : Nat), s.length ≤ f1 → s.length ≤ f2 →
      pyReplaceF pat rep f1 s = pyReplaceF pat rep f2 s := by
  intro f1
  induction f1 with
  | zero =>
    intro s f2 h1 _
    have hs : s = [] := List.length_eq_zero.mp (Nat.le_zero.mp h1)
    subst hs
    cases f2 <;> rfl
  | succ f ih =>
    intro s f2 h1 h2
    cases s with
    | nil => cases f2 <;> rfl
    | cons c rest =>
      cases f2 with
      | zero => simp at h2
      | succ g =>
        simp only [List.length_cons, Nat.succ_le_succ_iff] at h1 h2
        simp only [pyReplaceF]
        by_cases hp : pat ≠ [] ∧ startsWith pat (c :: rest)
        · rw [if_pos hp, if_pos hp]
          have hd : (List.drop (pat.length - 1) rest).length ≤ f := by
            rw [List.length_drop]; omega
          have hd2 : (List.drop (pat.length - 1) rest).length ≤ g := by
            rw [List.length_drop]; omega
          rw [ih _ g hd hd2]
        · rw [if_neg hp, if_neg hp]
          rw [ih rest g h1 h2]

/-- Derived unfolding of `pyReplace` on a cons cell. -/
theorem pyReplace_cons (pat rep : List Char) (c : Char) (rest : List Char) :
    pyReplace pat rep (c :: rest) =
      if pat ≠ [] ∧ startsWith pat (c :: rest) then
        rep ++ pyReplace pat rep (List.drop (pat.length - 1) rest)
      else
        c :: pyReplace pat rep rest := by
  show pyReplaceF pat rep (rest.length + 1) (c :: rest) = _
  simp only [pyReplaceF]
  by_cases hp : pat ≠ [] ∧ startsWith pat (c :: rest)
  · rw [if_pos hp, if_pos hp]
    rw [pyReplaceF_irrel pat rep rest.length _ (List.drop (pat.length - 1) rest).length
      (by rw [List.length_drop]; omega) (le_refl _)]
    rfl
  · rw [if_neg hp, if_neg hp]
    rfl

theorem startsWith_single (c x : Char) (rest : List Char) :
    startsWith [c] (x :: rest) = true ↔ c = x := by
  by_cases h : c = x <;> simp [startsWith, h]

/-- Single-character replacement acts independently on every character. -/
theorem pyReplace_single (c : Char) (rep : List Char) :
    ∀ s : List Char, pyReplace [c] rep s = s.flatMap (fun x => if x = c then rep else [x]) := by
  intro s
  induction s with
  | nil => rfl
  | cons x rest ih =>
    rw [pyReplace_cons]
    by_cases h : c = x
    · subst h
      rw [if_pos ⟨by simp, (startsWith_single c c rest).mpr rfl⟩]
      simp [ih]
    · rw [if_neg (by
        intro hc
        exact h ((startsWith_single c x rest).mp hc.2))]
      rw [ih, List.flatMap_cons, if_neg (fun hh : x = c => h hh.symm)]
      rfl

theorem mem_pyReplace (pat rep : List Char) :
    ∀ (s : List Char) (x : Char), x ∈ pyReplace pat rep s → x ∈ rep ∨ x ∈ s := by
  have key : ∀ (n : Nat) (s : List Char), s.length ≤ n →
      ∀ x, x ∈ pyReplace pat rep s → x ∈ rep ∨ x ∈ s := by
    intro n
    induction n with
    | zero =>
      intro s hs x hx
      have : s = [] := List.length_eq_zero.mp (Nat.le_zero.mp hs)
      subst this
      simp [pyReplace, pyReplaceF] at hx
    | succ n ih =>
      intro s hs x hx
      cases s with
      | nil => simp [pyReplace, pyReplaceF] at hx
      | cons c rest =>
        simp only [List.length_cons, Nat.succ_le_succ_iff] at hs
        rw [pyReplace_cons] at hx
        by_cases hp : pat ≠ [] ∧ startsWith pat (c :: rest)
        · rw [if_pos hp] at hx
          rcases List.mem_append.mp hx with h1 | h2
          · exact Or.inl h1
          · rcases ih _ (by rw [List.length_drop]; omega) x h2 with h3 | h4
            · exact Or.inl h3
            · exact Or.inr (List.mem_cons_of_mem c (List.drop_subset _ rest h4))
        · rw [if_neg hp] at hx
          rcases List.mem_cons.mp hx with h1 | h2
          · exact Or.inr (by simp [h1])
          · rcases ih rest hs x h2 with h3 | h4
            · exact Or.inl h3
            · exact Or.inr (List.mem_cons_of_mem c h4)
  exact fun s x hx => key s.length s (le_refl _) x hx

theorem intercalate_cons_ne (sep a : List Char) (l : List (List Char)) (h : l ≠ []) :
    List.intercalate sep (a :: l) = a ++ sep ++ List.intercalate sep l := by
  cases l with
  | nil => exact absurd rfl h
  | cons b t =>
    simp only [List.intercalate, List.intersperse_cons_cons, List.flatten_cons]
    simp [List.append_assoc]

theorem intercalate_singleton_str (sep a : List Char) :
    List.intercalate sep [a] = a := by
  simp [List.intercalate, List.intersperse_singleton]

theorem intercalate_append_last (sep f : List Char) :
    ∀ ves : List (List Char), ves ≠ [] →
      List.intercalate sep (ves ++ [f]) = List.intercalate sep ves ++ sep ++ f := by
  intro ves
  induction ves with
  | nil => intro h; exact absurd rfl h
  | cons v t ih =>
    intro _
    cases t with
    | nil =>
      rw [List.singleton_append, intercalate_cons_ne sep v [f] (by simp),
        intercalate_singleton_str, intercalate_singleton_str]
    | cons w u =>
      rw [List.cons_append, intercalate_cons_ne sep v ((w :: u) ++ [f]) (by simp),
        intercalate_cons_ne sep v (w :: u) (by simp), ih (by simp)]
      simp [List.append_assoc]

/-- C4: the built document is exactly header lines joined by CRLF, CRLF, an
optional timezone block followed by CRLF, the event blocks joined by CRLF,
CRLF, the calendar end marker, and a trailing CRLF — for the CAISO builder
(no timezone block) and the NYISO builder (with and without one).  Both
builders are functions of their inputs, so the result is identical for
identical inputs. -/
theorem c4_document_builder :
    (∀ vevents : List (List Char), vevents ≠ [] →
      caiso_build_merged_ics vevents =
        List.intercalate CRLF caisoHeaderLines ++ CRLF ++
        List.intercalate CRLF vevents ++ CRLF ++ S "END:VCALENDAR" ++ CRLF) ∧
    (∀ vevents : List (List Char), vevents ≠ [] → ∀ tz : List Char, tz ≠ [] →
      nyiso_build_merged_ics vevents (some tz) =
        List.intercalate CRLF nyisoHeaderLines ++ CRLF ++ tz ++ CRLF ++
        List.intercalate CRLF vevents ++ CRLF ++ S "END:VCALENDAR" ++ CRLF) ∧
    (∀ vevents : List (List Char), vevents ≠ [] →
      nyiso_build_merged_ics vevents none =
        List.intercalate CRLF nyisoHeaderLines ++ CRLF ++
        List.intercalate CRLF vevents ++ CRLF ++ S "END:VCALENDAR" ++ CRLF) := by
  refine ⟨fun vevents _ => rfl, fun vevents hv tz htz => ?_, fun vevents hv => ?_⟩
  · show List.intercalate CRLF
        ([List.intercalate CRLF nyisoHeaderLines] ++
          (if tz = [] then [] else [tz]) ++ vevents ++ [S "END:VCALENDAR"]) ++ CRLF = _
    rw [if_neg htz]
    rw [show [List.intercalate CRLF nyisoHeaderLines] ++ [tz] ++ vevents ++ [S "END:VCALENDAR"] =
        List.intercalate CRLF nyisoHeaderLines :: tz :: (vevents ++ [S "END:VCALENDAR"]) by simp]
    rw [intercalate_cons_ne _ _ _ (by simp), intercalate_cons_ne _ _ _ (by simp [hv]),
      intercalate_append_last _ _ vevents hv]
    simp [List.append_assoc]
  · show List.intercalate CRLF
        ([List.intercalate CRLF nyisoHeaderLines] ++ [] ++ vevents ++ [S "END:VCALENDAR"]) ++
        CRLF = _
    rw [show [List.intercalate CRLF nyisoHeaderLines] ++ [] ++ vevents ++ [S "END:VCALENDAR"] =
        List.intercalate CRLF nyisoHeaderLines :: (vevents ++ [S "END:VCALENDAR"]) by simp]
    rw [intercalate_cons_ne _ _ _ (by simp [hv]), intercalate_append_last _ _ vevents hv]
    simp [List.append_assoc]

/-- Witness for C4 at concrete inputs. -/
theorem c4_document_builder_witness :
    nyiso_build_merged_ics [S "BEGIN:VEVENT\r\nEND:VEVENT"] (some (S "TZBLOCK")) =
      List.intercalate CRLF nyisoHeaderLines ++ CRLF ++ S "TZBLOCK" ++ CRLF ++
      List.intercalate CRLF [S "BEGIN:VEVENT\r\nEND:VEVENT"] ++ CRLF ++
      S "END:VCALENDAR" ++ CRLF :=
  c4_document_builder.2.1 [S "BEGIN:VEVENT\r\nEND:VEVENT"] (by decide) (S "TZBLOCK") (by decide)

/-- The four sequential single-character replacements of `ics_escape` in
flat-map form. -/
theorem ics_escape_flatMap_form (t : List Char) :
    ics_escape t =
      (((t.flatMap (fun x => if x = '\\' then ['\\', '\\'] else [x])).flatMap
          (fun x => if x = ';' then ['\\', ';'] else [x])).flatMap
        (fun x => if x = ',' then ['\\', ','] else [x])).flatMap
        (fun x => if x = '\n' then ['\\', 'n'] else [x]) := by
  simp only [ics_escape]
  rw [show (S "\n") = ['\n'] from rfl, show (S "\\n") = ['\\', 'n'] from rfl,
    show (S ",") = [','] from rfl, show (S "\\,") = ['\\', ','] from rfl,
    show (S ";") = [';'] from rfl, show (S "\\;") = ['\\', ';'] from rfl,
    show (S "\\") = ['\\'] from rfl, show (S "\\\\") = ['\\', '\\'] from rfl]
  rw [pyReplace_single, pyReplace_single, pyReplace_single, pyReplace_single]

/-- Character-wise form of `ics_escape`: the composite of the four ordered
replacements maps each character independently. -/
theorem ics_escape_cons (x : Char) (rest : List Char) :
    ics_escape (x :: rest) =
      (if x = '\\' then ['\\', '\\']
       else if x = ';' then ['\\', ';']
       else if x = ',' then ['\\', ',']
       else if x = '\n' then ['\\', 'n'] else [x]) ++ ics_escape rest := by
  rw [ics_escape_flatMap_form, ics_escape_flatMap_form, List.flatMap_cons,
    List.flatMap_append, List.flatMap_append, List.flatMap_append]
  congr 1
  by_cases h1 : x = '\\'
  · subst h1; decide
  · by_cases h2 : x = ';'
    · subst h2; decide
    · by_cases h3 : x = ','
      · subst h3; decide
      · by_cases h4 : x = '\n'
        · subst h4; decide
        · simp [h1, h2, h3, h4]

/-- The spec-modelled unescape is a left inverse of `ics_escape`. -/
theorem unescape_escape (s : List Char) : ics_unescape (ics_escape s) = s := by
  induction s with
  | nil => rfl
  | cons x rest ih =>
    rw [ics_escape_cons]
    by_cases h1 : x = '\\'
    · subst h1
      rw [if_pos rfl]
      show ics_unescape ('\\' :: '\\' :: ics_escape rest) = _
      simp [ics_unescape, ih]
    · by_cases h2 : x = ';'
      · subst h2
        rw [if_neg h1, if_pos rfl]
        show ics_unescape ('\\' :: ';' :: ics_escape rest) = _
        simp [ics_unescape, ih]
      · by_cases h3 : x = ','
        · subst h3
          rw [if_neg h1, if_neg h2, if_pos rfl]
          show ics_unescape ('\\' :: ',' :: ics_escape rest) = _
          simp [ics_unescape, ih]
        · by_cases h4 : x = '\n'
          · subst h4
            rw [if_neg h1, if_neg h2, if_neg h3, if_pos rfl]
            show ics_unescape ('\\' :: 'n' :: ics_escape rest) = _
            simp [ics_unescape, ih]
          · rw [if_neg h1, if_neg h2, if_neg h3, if_neg h4]
            show ics_unescape (x :: ics_escape rest) = _
            cases h : ics_escape rest with
            | nil =>
              rw [h] at ih
              simp [ics_unescape, ← ih]
            | cons y t =>
              rw [show ics_unescape (x :: y :: t) =
                  x :: ics_unescape (y :: t) from by simp [ics_unescape, h1]]
              rw [← h, ih]

/-- C5: `ics_escape` replaces, in this order, backslash, then semicolon,
then comma, then newline; the spec's inverse unescape recovers every input
exactly, hence the escape is injective — including on strings mixing all
four special characters. -/
theorem c5_escape_roundtrip :
    (∀ s : List Char, ics_unescape (ics_escape s) = s) ∧
    (∀ s t : List Char, ics_escape s = ics_escape t → s = t) ∧
    ics_escape (S "a\\b;c,d\ne") = S "a\\\\b\\;c\\,d\\ne" ∧
    ics_unescape (ics_escape (S "a\\b;c,d\ne")) = S "a\\b;c,d\ne" := by
  refine ⟨unescape_escape, fun s t h => ?_, by decide, by decide⟩
  have hs := unescape_escape s
  rw [h, unescape_escape t] at hs
  exact hs.symm

/-- Witness for C5: the injectivity hypothesis discharged at a concrete
input. -/
theorem c5_escape_roundtrip_witness :
    S "x,;\\" = S "x,;\\" ∧ ics_unescape (ics_escape (S "x,;\\")) = S "x,;\\" :=
  ⟨c5_escape_roundtrip.2.1 (S "x,;\\") (S "x,;\\") rfl, c5_escape_roundtrip.1 (S "x,;\\")⟩

theorem splitFirst_none_mem (c : Char) :
    ∀ s : List Char, splitFirst [c] s = none → c ∉ s := by
  intro s
  induction s with
  | nil => intro _; simp
  | cons x rest ih =>
    intro h
    by_cases hcx : c = x
    · exfalso
      subst hcx
      have hcond : [c] ≠ [] ∧ startsWith [c] (c :: rest) = true :=
        ⟨by simp, (startsWith_single c c rest).mpr rfl⟩
      simp only [splitFirst, if_pos hcond] at h
      exact Option.noConfusion h
    · have hs : ¬([c] ≠ [] ∧ startsWith [c] (x :: rest) = true) := fun hc =>
        hcx ((startsWith_single c x rest).mp hc.2)
      simp only [splitFirst, if_neg hs] at h
      cases hsp : splitFirst [c] rest with
      | none =>
        intro hmem
        rcases List.mem_cons.mp hmem with h1 | h2
        · exact hcx h1
        · exact ih hsp h2
      | some ab =>
        rw [hsp] at h
        exact Option.noConfusion h

theorem splitFirst_some_before (c : Char) :
    ∀ (s a b : List Char), splitFirst [c] s = some (a, b) → c ∉ a := by
  intro s
  induction s with
  | nil => intro a b h; simp [splitFirst] at h
  | cons x rest ih =>
    intro a b h
    by_cases hcx : c = x
    · subst hcx
      have hcond : [c] ≠ [] ∧ startsWith [c] (c :: rest) = true :=
        ⟨by simp, (startsWith_single c c rest).mpr rfl⟩
      simp only [splitFirst, if_pos hcond] at h
      have ha : a = [] := by
        have := Option.some.inj h
        exact (Prod.mk.injEq _ _ _ _ ▸ this).1.symm
      subst ha
      simp
    · have hs : ¬([c] ≠ [] ∧ startsWith [c] (x :: rest) = true) := fun hc =>
        hcx ((startsWith_single c x rest).mp hc.2)
      simp only [splitFirst, if_neg hs] at h
      cases hsp : splitFirst [c] rest with
      | none =>
        rw [hsp] at h
        exact Option.noConfusion h
      | some ab =>
        obtain ⟨a', b'⟩ := ab
        rw [hsp] at h
        have := Option.some.inj h
        have ha : x :: a' = a := (Prod.mk.injEq _ _ _ _ ▸ this).1
        subst ha
        intro hmem
        rcases List.mem_cons.mp hmem with h1 | h2
        · exact hcx h1
        · exact ih a' b' hsp h2

/-- The part of a string before its first occurrence of `c` (the head of the
Python split) never contains `c`. -/
theorem head_pySplit_single (c : Char) (s : List Char) :
    c ∉ (pySplit [c] s).headD [] := by
  show c ∉ (pySplitF [c] (s.length + 1) s).headD []
  cases hsp : splitFirst [c] s with
  | none =>
    simp only [pySplitF, hsp, List.headD_cons]
    exact splitFirst_none_mem c s hsp
  | some ab =>
    obtain ⟨a, b⟩ := ab
    simp only [pySplitF, hsp, List.headD_cons]
    exact splitFirst_some_before c s a b hsp

/-- The SPP timestamp normalization never emits a fractional-seconds dot. -/
theorem parse_dt_no_dot (s : List Char) : '.' ∉ parse_dt s := by
  intro hmem
  simp only [parse_dt] at hmem
  rcases mem_pyReplace _ _ _ _ hmem with h1 | h2
  · exact absurd h1 (by decide)
  rcases mem_pyReplace _ _ _ _ h2 with h3 | h4
  · exact absurd h3 (by decide)
  rcases mem_pyReplace _ _ _ _ h4 with h5 | h6
  · exact absurd h5 (by decide)
  exact head_pySplit_single '.' s h6

/-- The ISO-NE conversion introduces no dot of its own: if the source string
has no fractional part, neither does the emitted value. -/
theorem isoneDt_no_dot (s : List Char) (h : '.' ∉ s) : '.' ∉ isoneDt s := by
  intro hmem
  simp only [isoneDt] at hmem
  rcases List.mem_append.mp hmem with hl | hr
  · rcases mem_pyReplace _ _ _ _ hl with h1 | h2
    · exact absurd h1 (by decide)
    rcases mem_pyReplace _ _ _ _ h2 with h3 | h4
    · exact absurd h3 (by decide)
    rcases mem_pyReplace _ _ _ _ h4 with h5 | h6
    · exact absurd h5 (by decide)
    exact h h6
  · exact absurd hr (by decide)

/-- C7 (amended): the SPP conversion `parse_dt` always discards the
fractional-seconds part (its output never contains a dot); the ISO-NE
conversion merely removes separators, so its output is dot-free only when
the source string is. -/
theorem c7_fractional_seconds_amended :
    (∀ s : List Char, '.' ∉ parse_dt s) ∧
    (∀ s : List Char, '.' ∉ s → '.' ∉ isoneDt s) :=
  ⟨parse_dt_no_dot, isoneDt_no_dot⟩

/-- Witness for C7 at concrete timestamps. -/
theorem c7_fractional_seconds_witness :
    '.' ∉ parse_dt (S "2026-02-26T08:30:00.5000000") ∧
    '.' ∉ isoneDt (S "2026-02-26T08:30:00") :=
  ⟨c7_fractional_seconds_amended.1 (S "2026-02-26T08:30:00.5000000"),
   c7_fractional_seconds_amended.2 (S "2026-02-26T08:30:00") (by decide)⟩

/-- Counterexample to C7 as stated: the ISO-NE conversion keeps the
fractional-seconds part of its source string, so the emitted DTSTART value
contains a dot, while the SPP conversion discards it. -/
theorem c7_fractional_seconds_counterexample :
    isoneDt (S "2026-02-26T08:30:00.5000000") = S "20260226T083000.5000000Z" ∧
    '.' ∈ isoneDt (S "2026-02-26T08:30:00.5000000") ∧
    parse_dt (S "2026-02-26T08:30:00.5000000") = S "20260226T083000" := by
  refine ⟨by decide, by decide, by decide⟩

theorem lexLt_irrefl (a : List Char) : lexLt a a = false := by
  induction a with
  | nil => rfl
  | cons c s ih => simp [lexLt, lt_self_iff_false, ih]

theorem lexLe_refl (a : List Char) : lexLe a a = true := by
  simp [lexLe]

/-- The seen-set only grows along the PJM loop. -/
theorem pjmLoop_seen_mono (lo hi : List Char) :
    ∀ (ves seen : List (List Char)) (x : List Char), x ∈ seen →
      x ∈ (pjmLoop lo hi ves seen).2 := by
  intro ves
  induction ves with
  | nil => intro seen x hx; exact hx
  | cons ve rest ih =>
    intro seen x hx
    cases hu : extract_uid ve with
    | none =>
      simp only [pjmLoop, hu]
      exact ih seen x hx
    | some uid =>
      simp only [pjmLoop, hu]
      by_cases hc : uid ≠ [] ∧ uid ∉ seen
      · rw [if_pos hc]
        cases hd : extract_dtstart_date ve with
        | none => exact ih (uid :: seen) x (by simp [hx])
        | some d =>
          dsimp only
          by_cases hw : d ≠ [] ∧ ¬(lexLe lo d = true ∧ lexLt d hi = true)
          · rw [if_pos hw]; exact ih seen x hx
          · rw [if_neg hw]; exact ih (uid :: seen) x (by simp [hx])
      · rw [if_neg hc]; exact ih seen x hx

/-- C8: for a fresh non-empty UID and a parseable DTSTART date, the PJM
window filter keeps the block iff `lo ≤ d < hi` (strings compared
lexicographically): a block starting exactly at the lower bound is kept
(inclusive), one starting exactly at the upper bound is dropped
(exclusive), and a dropped block does not register its UID as seen —
the loop recurses on the unchanged seen-set. -/
theorem c8_date_window_boundary (ve u d lo hi : List Char) (rest seen : List (List Char))
    (hu : extract_uid ve = some u) (hne : u ≠ []) (hseen : u ∉ seen)
    (hd : extract_dtstart_date ve = some d) (hdne : d ≠ []) :
    (pjmLoop lo hi (ve :: rest) seen =
      if lexLe lo d = true ∧ lexLt d hi = true then
        (ve :: (pjmLoop lo hi rest (u :: seen)).1, (pjmLoop lo hi rest (u :: seen)).2)
      else pjmLoop lo hi rest seen) ∧
    (d = lo → lexLt lo hi = true →
      pjmLoop lo hi (ve :: rest) seen =
        (ve :: (pjmLoop lo hi rest (u :: seen)).1, (pjmLoop lo hi rest (u :: seen)).2)) ∧
    (d = hi → pjmLoop lo hi (ve :: rest) seen = pjmLoop lo hi rest seen) := by
  have main : pjmLoop lo hi (ve :: rest) seen =
      if lexLe lo d = true ∧ lexLt d hi = true then
        (ve :: (pjmLoop lo hi rest (u :: seen)).1, (pjmLoop lo hi rest (u :: seen)).2)
      else pjmLoop lo hi rest seen := by
    simp only [pjmLoop, hu, hd]
    by_cases hw : lexLe lo d = true ∧ lexLt d hi = true
    · rw [if_pos ⟨hne, hseen⟩, if_neg (fun hc => hc.2 hw), if_pos hw]
    · rw [if_pos ⟨hne, hseen⟩, if_pos ⟨hdne, hw⟩, if_neg hw]
  refine ⟨main, fun hdl hlt => ?_, fun hdh => ?_⟩
  · rw [main, if_pos]
    subst hdl
    exact ⟨lexLe_refl d, hlt⟩
  · rw [main, if_neg]
    subst hdh
    intro hc
    rw [lexLt_irrefl d] at hc
    exact Bool.false_ne_true hc.2

/-- Witness for C8: a block starting exactly at the lower bound is kept and
its UID registered; one starting exactly at the upper bound is dropped and
nothing is registered. -/
theorem c8_date_window_boundary_witness :
    pjmLoop (S "20260101") (S "20260401")
      [S "BEGIN:VEVENT\r\nUID:ev1\r\nDTSTART:20260101T000000\r\nEND:VEVENT"] [] =
      ([S "BEGIN:VEVENT\r\nUID:ev1\r\nDTSTART:20260101T000000\r\nEND:VEVENT"], [S "ev1"]) ∧
    pjmLoop (S "20260101") (S "20260401")
      [S "BEGIN:VEVENT\r\nUID:ev1\r\nDTSTART:20260401T000000\r\nEND:VEVENT"] [] =
      ([], []) := by
  constructor
  · have h := (c8_date_window_boundary
      (S "BEGIN:VEVENT\r\nUID:ev1\r\nDTSTART:20260101T000000\r\nEND:VEVENT")
      (S "ev1") (S "20260101") (S "20260101") (S "20260401") [] []
      (by decide) (by decide) (by simp) (by decide) (by decide)).2.1 rfl (by decide)
    rw [h]
    rfl
  · have h := (c8_date_window_boundary
      (S "BEGIN:VEVENT\r\nUID:ev1\r\nDTSTART:20260401T000000\r\nEND:VEVENT")
      (S "ev1") (S "20260401") (S "20260101") (S "20260401") [] []
      (by decide) (by decide) (by simp) (by decide) (by decide)).2.2 rfl
    rw [h]
    rfl

/-- C10: a block with a fresh non-empty UID but no DTSTART line carrying an
8-digit date bypasses the window filter entirely: it is kept in the output
and its UID is registered as seen. -/
theorem c10_missing_dtstart_bypass (ve u lo hi : List Char) (rest seen : List (List Char))
    (hu : extract_uid ve = some u) (hne : u ≠ []) (hseen : u ∉ seen)
    (hd : extract_dtstart_date ve = none) :
    pjmLoop lo hi (ve :: rest) seen =
      (ve :: (pjmLoop lo hi rest (u :: seen)).1, (pjmLoop lo hi rest (u :: seen)).2) ∧
    ve ∈ (pjmLoop lo hi (ve :: rest) seen).1 ∧
    u ∈ (pjmLoop lo hi (ve :: rest) seen).2 := by
  have main : pjmLoop lo hi (ve :: rest) seen =
      (ve :: (pjmLoop lo hi rest (u :: seen)).1, (pjmLoop lo hi rest (u :: seen)).2) := by
    simp only [pjmLoop, hu, hd]
    rw [if_pos ⟨hne, hseen⟩]
  refine ⟨main, ?_, ?_⟩
  · rw [main]; simp
  · rw [main]
    exact pjmLoop_seen_mono lo hi rest (u :: seen) u (by simp)

/-- Witness for C10: a block whose DTSTART value is not an 8-digit date
survives the merge even though its date is outside any window, and its UID
is registered. -/
theorem c10_missing_dtstart_bypass_witness :
    pjmLoop (S "20260101") (S "20260401")
      [S "BEGIN:VEVENT\r\nUID:ev2\r\nDTSTART:2026-01-01\r\nEND:VEVENT"] [] =
      ([S "BEGIN:VEVENT\r\nUID:ev2\r\nDTSTART:2026-01-01\r\nEND:VEVENT"], [S "ev2"]) := by
  have h := (c10_missing_dtstart_bypass
    (S "BEGIN:VEVENT\r\nUID:ev2\r\nDTSTART:2026-01-01\r\nEND:VEVENT")
    (S "ev2") (S "20260101") (S "20260401") [] []
    (by decide) (by decide) (by simp) (by decide)).1
  rw [h]
  rfl

theorem intercalate_cons_ne_nil (sep a : List Char) (l : List (List Char)) (ha : a ≠ []) :
    List.intercalate sep (a :: l) ≠ [] := by
  cases l with
  | nil => rw [intercalate_singleton_str]; exact ha
  | cons b t =>
    rw [intercalate_cons_ne sep a (b :: t) (by simp)]
    simp [ha]

/-- C6 (amended): the ISO-NE adapter produces a record exactly when both
mandatory fields (identity and start) are present and non-empty, skipping
otherwise with no failure; the SPP adapter skips on a missing or empty
start (returning the falsy empty string), but a missing identity key raises
a lookup error that propagates instead of skipping. -/
theorem c6_adapter_mandatory_fields_amended :
    (∀ (stripHtml : List Char → List Char) (now : List Char)
        (event : List (List Char × List Char)),
      isone_build_vevent stripHtml now event ≠ none ↔
        (jget event (S "event_start_date_gmt_str") [] ≠ [] ∧
         jget event (S "event_id") [] ≠ [])) ∧
    (∀ (now : List Char) (event : List (List Char × List Char)),
      event.lookup (S "id") = none → spp_build_vevent now event = Except.error (S "id")) ∧
    (∀ (now : List Char) (event : List (List Char × List Char)) (eid : List Char),
      event.lookup (S "id") = some eid → jget event (S "start") [] = [] →
      spp_build_vevent now event = Except.ok []) ∧
    (∀ (now : List Char) (event : List (List Char × List Char)) (eid : List Char),
      event.lookup (S "id") = some eid → jget event (S "start") [] ≠ [] →
      parse_dt (jget event (S "start") []) ≠ [] →
      ∃ b, spp_build_vevent now event = Except.ok b ∧ b ≠ []) := by
  refine ⟨fun stripHtml now event => ?_, fun now event h => ?_,
    fun now event eid hid hstart => ?_, fun now event eid hid hstart hpd => ?_⟩
  · simp only [isone_build_vevent]
    by_cases h : jget event (S "event_start_date_gmt_str") [] = [] ∨
        jget event (S "event_id") [] = []
    · rw [if_pos h]
      constructor
      · intro hc; exact absurd rfl hc
      · rintro ⟨h1, h2⟩
        rcases h with h | h
        · exact absurd h h1
        · exact absurd h h2
    · rw [if_neg h]
      constructor
      · intro _; exact ⟨fun he => h (Or.inl he), fun he => h (Or.inr he)⟩
      · intro _; simp
  · simp only [spp_build_vevent, h]
  · simp only [spp_build_vevent, hid, hstart]
    simp
  · simp only [spp_build_vevent, hid, if_neg hstart]
    rw [if_neg hpd]
    refine ⟨_, rfl, ?_⟩
    simp only [List.cons_append]
    exact intercalate_cons_ne_nil CRLF _ _ (by decide)

/-- Witness for C6 at concrete events. -/
theorem c6_adapter_mandatory_fields_witness :
    isone_build_vevent id (S "20260101T000000Z")
      [(S "event_id", S "42"), (S "event_start_date_gmt_str", S "2026-01-01T00:00:00")] ≠
      none ∧
    spp_build_vevent (S "20260101T000000Z") [] = Except.error (S "id") ∧
    spp_build_vevent (S "20260101T000000Z") [(S "id", S "7")] = Except.ok [] ∧
    ∃ b, spp_build_vevent (S "20260101T000000Z")
        [(S "id", S "7"), (S "start", S "2026-02-26T08:30:00.0000000")] =
          Except.ok b ∧ b ≠ [] :=
  ⟨(c6_adapter_mandatory_fields_amended.1 id (S "20260101T000000Z") _).mpr
      ⟨by decide, by decide⟩,
   c6_adapter_mandatory_fields_amended.2.1 (S "20260101T000000Z") [] rfl,
   c6_adapter_mandatory_fields_amended.2.2.1 (S "20260101T000000Z") [(S "id", S "7")]
      (S "7") (by decide) (by decide),
   c6_adapter_mandatory_fields_amended.2.2.2 (S "20260101T000000Z")
      [(S "id", S "7"), (S "start", S "2026-02-26T08:30:00.0000000")] (S "7")
      (by decide) (by decide) (by decide)⟩

/-- Counterexample to C6 as stated: an SPP event object with a start but no
identity key makes the adapter raise a key-lookup error that propagates,
instead of being skipped with no record. -/
theorem c6_adapter_mandatory_fields_counterexample :
    spp_build_vevent (S "20260101T000000Z")
      [(S "title", S "x"), (S "start", S "2026-01-01T00:00:00")] =
      Except.error (S "id") := rfl

theorem if_nil_iff {c : Prop} [Decidable c] (m : List Char) :
    ((if c then ([] : List (List Char)) else [m]) = []) ↔ c := by
  by_cases h : c <;> simp [h]

/-- C3: the validator verdict is PASS iff begin- and end-marker counts
match, the stripped text starts with the calendar begin marker and ends
with the calendar end marker, a version declaration and a producer
identifier are present, and no extracted event block lacks a DTSTART or a
SUMMARY; otherwise it is FAIL together with the issue strings, the count
mismatch rendered as `VEVENT mismatch: X begin vs Y end` and a single
summary-less block rendered as `1 events missing SUMMARY`. -/
theorem c3_validator_verdict (text : List Char) :
    ((validateFeed text).1 = true ↔
      (pyCount begMark text = pyCount endMark text ∧
       startsWith (S "BEGIN:VCALENDAR") (pyStrip text) = true ∧
       endsWith (S "END:VCALENDAR") (pyStrip text) = true ∧
       containsSub (S "VERSION:2.0") text = true ∧
       containsSub (S "PRODID:") text = true ∧
       (∀ b ∈ findBlocks text, containsSub (S "DTSTART") b = true) ∧
       (∀ b ∈ findBlocks text, containsSub (S "SUMMARY") b = true))) ∧
    ((validateFeed text).1 = false ↔ (validateFeed text).2 ≠ []) ∧
    (pyCount begMark text ≠ pyCount endMark text →
      mismatchMsg (pyCount begMark text) (pyCount endMark text) ∈ (validateFeed text).2) ∧
    (((findBlocks text).filter (fun v => !containsSub (S "SUMMARY") v)).length = 1 →
      S "1 events missing SUMMARY" ∈ (validateFeed text).2) := by
  refine ⟨?_, ?_, ?_, ?_⟩
  · simp only [validateFeed, List.isEmpty_iff, List.append_eq_nil, if_nil_iff,
      List.length_eq_zero, List.filter_eq_nil_iff, Bool.not_eq_true', Bool.not_eq_false]
    tauto
  · rw [show (validateFeed text).1 = ((validateFeed text).2).isEmpty from rfl]
    cases h : (validateFeed text).2 <;> simp
  · intro hne
    simp only [validateFeed, if_neg hne]
    simp [List.mem_append]
  · intro h1
    have hmsg : missingMsg 1 (S "SUMMARY") = S "1 events missing SUMMARY" := by decide
    simp only [validateFeed, h1]
    rw [if_neg (by decide : ¬(1 = 0))]
    rw [hmsg]
    simp [List.mem_append]

/-- Witness for C3: a well-formed document passes; a document with two
begin markers and one end marker reports the mismatch string; removing the
summary from the single event block reports `1 events missing SUMMARY`. -/
theorem c3_validator_verdict_witness :
    (validateFeed (S "BEGIN:VCALENDAR\r\nVERSION:2.0\r\nPRODID:-//X//EN\r\nBEGIN:VEVENT\r\nDTSTART:20260101\r\nSUMMARY:a\r\nEND:VEVENT\r\nEND:VCALENDAR\r\n")).1 = true ∧
    mismatchMsg
      (pyCount begMark (S "xBEGIN:VEVENTyBEGIN:VEVENTzEND:VEVENT"))
      (pyCount endMark (S "xBEGIN:VEVENTyBEGIN:VEVENTzEND:VEVENT")) ∈
      (validateFeed (S "xBEGIN:VEVENTyBEGIN:VEVENTzEND:VEVENT")).2 ∧
    S "1 events missing SUMMARY" ∈
      (validateFeed (S "BEGIN:VCALENDAR\r\nVERSION:2.0\r\nPRODID:-//X//EN\r\nBEGIN:VEVENT\r\nDTSTART:20260101\r\nEND:VEVENT\r\nEND:VCALENDAR\r\n")).2 :=
  ⟨(c3_validator_verdict _).1.mpr
      ⟨by decide, by decide, by decide, by decide, by decide, by decide, by decide⟩,
   (c3_validator_verdict _).2.2.1 (by decide),
   (c3_validator_verdict _).2.2.2 (by decide)⟩

theorem startsWith_iff : ∀ p s : List Char, startsWith p s = true ↔ p <+: s := by
  intro p
  induction p with
  | nil => intro s; simp [startsWith]
  | cons a p' ih =>
    intro s
    cases s with
    | nil => simp [startsWith]
    | cons b t =>
      by_cases hab : a = b
      · subst hab
        simp [startsWith, ih t, List.cons_prefix_cons]
      · simp [startsWith, hab, List.cons_prefix_cons]

/-- A prefix that avoids the character `c` cannot reach past an occurrence
of `c`. -/
theorem prefix_append_stop (c : Char) :
    ∀ (p a z : List Char), c ∉ p → (p <+: a ++ c :: z ↔ p <+: a) := by
  intro p
  induction p with
  | nil => intro a z _; simp
  | cons q p' ih =>
    intro a z hc
    cases a with
    | nil =>
      simp only [List.nil_append, List.cons_prefix_cons]
      constructor
      · rintro ⟨hq, _⟩
        exact (hc (by rw [← hq]; exact List.mem_cons_self q p')).elim
      · intro h
        simp at h
    | cons x a' =>
      simp only [List.cons_append, List.cons_prefix_cons]
      constructor
      · rintro ⟨hq, hp⟩
        exact ⟨hq, (ih a' z (fun hm => hc (List.mem_cons_of_mem q hm))).mp hp⟩
      · rintro ⟨hq, hp⟩
        exact ⟨hq, (ih a' z (fun hm => hc (List.mem_cons_of_mem q hm))).mpr hp⟩

theorem startsWith_head_false (p : List Char) (c : Char) (z : List Char)
    (hp : p ≠ []) (hc : c ∉ p) : startsWith p (c :: z) = false := by
  rw [← Bool.not_eq_true, startsWith_iff]
  intro hpre
  have := (prefix_append_stop c p [] z hc).mp (by simpa using hpre)
  simp [List.prefix_nil] at this
  exact hp this

theorem splitFirst_self (p w : List Char) (hp : p ≠ []) :
    splitFirst p (p ++ w) = some ([], w) := by
  cases p with
  | nil => exact absurd rfl hp
  | cons q p' =>
    have hsw : startsWith (q :: p') ((q :: p') ++ w) = true :=
      (startsWith_iff _ _).mpr (List.prefix_append _ w)
    rw [List.cons_append, splitFirst, if_pos ⟨by simp, by rw [← List.cons_append]; exact hsw⟩]
    congr 1
    have : (q :: p').length - 1 = p'.length := by simp
    rw [this, List.drop_left]

theorem containsSub_of_startsWith :
    ∀ (p s : List Char), startsWith p s = true → containsSub p s = true := by
  intro p s
  cases s with
  | nil =>
    intro h
    cases p with
    | nil => rfl
    | cons a p' => simp [startsWith] at h
  | cons c rest => intro h; simp [containsSub, h]

theorem containsSub_tail (p : List Char) (c : Char) (rest : List Char)
    (h : containsSub p rest = true) : containsSub p (c :: rest) = true := by
  simp [containsSub, h]

theorem containsSub_of_suffix_part :
    ∀ (l m p : List Char), m <:+ l → containsSub p m = true → containsSub p l = true := by
  intro l
  induction l with
  | nil =>
    intro m p hm hc
    rw [List.suffix_nil] at hm
    subst hm
    exact hc
  | cons c rest ih =>
    intro m p hm hc
    rcases List.suffix_cons_iff.mp hm with h1 | h2
    · subst h1
      exact hc
    · exact containsSub_tail p c rest (ih m p h2 hc)

/-- The stripped content of a line is still a substring of it. -/
theorem pyStrip_contains (l : List Char) : containsSub (pyStrip l) l = true := by
  have h1 : (l.dropWhile Char.isWhitespace) <:+ l := List.dropWhile_suffix _
  have h2 : ((l.dropWhile Char.isWhitespace).reverse.dropWhile Char.isWhitespace) <:+
      (l.dropWhile Char.isWhitespace).reverse := List.dropWhile_suffix _
  have h3 : pyStrip l <+: l.dropWhile Char.isWhitespace := by
    rw [pyStrip]
    rw [← List.reverse_suffix]
    simpa using h2
  exact containsSub_of_suffix_part l (l.dropWhile Char.isWhitespace) (pyStrip l) h1
    (containsSub_of_startsWith _ _ ((startsWith_iff _ _).mpr h3))

/-- A marker-clean, well-formed document (as lines) is well formed for the
line-oriented scan as well. -/
theorem WFDoc_to_WF {lines : List (List Char)} {bs : List (List (List Char))}
    (h : WFDoc lines bs) : WF lines bs := by
  induction h with
  | nil => exact WF.nil
  | junk hb he _ ih =>
    refine WF.junk (fun hc => ?_) (fun hc => ?_) ih
    · rw [← hc] at hb
      rw [pyStrip_contains _] at hb
      simp at hb
    · rw [← hc] at he
      rw [pyStrip_contains _] at he
      simp at he
  | block hmid _ ih =>
    refine WF.block (by decide) (fun m hm => ?_) (by decide) ih
    obtain ⟨hb, he⟩ := hmid m hm
    constructor
    · intro hc
      rw [← hc] at hb
      rw [pyStrip_contains _] at hb
      simp at hb
    · intro hc
      rw [← hc] at he
      rw [pyStrip_contains _] at he
      simp at he

theorem splitFirst_none_of_not_contains (p : List Char) :
    ∀ s : List Char, containsSub p s = false → splitFirst p s = none := by
  intro s
  induction s with
  | nil =>
    intro h
    simp only [splitFirst]
    rw [if_neg]
    intro hp
    subst hp
    simp [containsSub] at h
  | cons c rest ih =>
    intro h
    simp only [containsSub, Bool.or_eq_false_iff] at h
    obtain ⟨h1, h2⟩ := h
    simp only [splitFirst]
    rw [if_neg (fun hc => Bool.false_ne_true (h1 ▸ hc.2))]
    rw [ih h2]

theorem sf_skip (p : List Char) (hp : p ≠ []) (hcr : '\r' ∉ p) (hlf : '\n' ∉ p) :
    ∀ (l z : List Char), containsSub p l = false →
      splitFirst p (l ++ '\r' :: '\n' :: z) =
        (splitFirst p z).map (fun ab => (l ++ '\r' :: '\n' :: ab.1, ab.2)) := by
  intro l
  induction l with
  | nil =>
    intro z _
    have s1 : startsWith p ('\r' :: '\n' :: z) = false := startsWith_head_false p '\r' _ hp hcr
    have s2 : startsWith p ('\n' :: z) = false := startsWith_head_false p '\n' _ hp hlf
    cases hsp : splitFirst p z with
    | none => simp [splitFirst, s1, s2, hsp]
    | some ab =>
      obtain ⟨a, b⟩ := ab
      simp [splitFirst, s1, s2, hsp]
  | cons x l' ih =>
    intro z hl
    simp only [containsSub, Bool.or_eq_false_iff] at hl
    obtain ⟨h1, h2⟩ := hl
    have hsw : startsWith p ((x :: l') ++ '\r' :: '\n' :: z) = false := by
      rw [← Bool.not_eq_true, startsWith_iff]
      intro hpre
      have hpre2 : p <+: x :: l' :=
        (prefix_append_stop '\r' p (x :: l') ('\n' :: z) hcr).mp hpre
      rw [← startsWith_iff, h1] at hpre2
      exact Bool.false_ne_true hpre2
    cases hsp : splitFirst p z with
    | none =>
      have ihz := ih z h2
      rw [hsp] at ihz
      simp only [List.cons_append, splitFirst]
      rw [if_neg (fun hc => Bool.false_ne_true ((List.cons_append x l' _ ▸ hsw) ▸ hc.2))]
      simp only [List.append_eq]
      rw [ihz]
      simp [hsp]
    | some ab =>
      obtain ⟨a, b⟩ := ab
      have ihz := ih z h2
      rw [hsp] at ihz
      simp only [List.cons_append, splitFirst]
      rw [if_neg (fun hc => Bool.false_ne_true ((List.cons_append x l' _ ▸ hsw) ▸ hc.2))]
      simp only [List.append_eq]
      rw [ihz]
      simp [hsp]

theorem startsWith_length_le (p s : List Char) (h : startsWith p s = true) :
    p.length ≤ s.length :=
  ((startsWith_iff p s).mp h).length_le

theorem splitFirst_some_length (p : List Char) (hp : p ≠ []) :
    ∀ (s a b : List Char), splitFirst p s = some (a, b) →
      a.length + p.length + b.length = s.length := by
  intro s
  induction s with
  | nil =>
    intro a b h
    simp only [splitFirst, if_neg hp] at h
    exact Option.noConfusion h
  | cons c rest ih =>
    intro a b h
    by_cases hc : p ≠ [] ∧ startsWith p (c :: rest) = true
    · simp only [splitFirst, if_pos hc] at h
      have hinj := Option.some.inj h
      have ha : a = [] := congrArg Prod.fst hinj |>.symm
      have hb : b = List.drop (p.length - 1) rest := congrArg Prod.snd hinj |>.symm
      have hlen := startsWith_length_le p (c :: rest) hc.2
      have hppos : 0 < p.length := List.length_pos.mpr hp
      subst ha
      subst hb
      simp only [List.length_nil, List.length_drop, List.length_cons] at *
      omega
    · simp only [splitFirst, if_neg hc] at h
      cases hsp : splitFirst p rest with
      | none => rw [hsp] at h; exact Option.noConfusion h
      | some ab =>
        obtain ⟨a', b'⟩ := ab
        rw [hsp] at h
        have hinj := Option.some.inj h
        have ha : a = c :: a' := congrArg Prod.fst hinj |>.symm
        have hb : b = b' := congrArg Prod.snd hinj |>.symm
        have ih' := ih a' b' hsp
        subst ha
        subst hb
        simp only [List.length_cons]
        omega

theorem findBlocksF_irrel :
    ∀ (f1 : Nat) (s : List Char) (f2 : Nat), s.length < f1 → s.length < f2 →
      findBlocksF f1 s = findBlocksF f2 s := by
  intro f1
  induction f1 with
  | zero => intro s f2 h1 _; exact absurd h1 (by omega)
  | succ f ih =>
    intro s f2 h1 h2
    cases f2 with
    | zero => exact absurd h2 (by omega)
    | succ g =>
      simp only [findBlocksF]
      cases hsp : splitFirst begMark s with
      | none => rfl
      | some ab =>
        obtain ⟨pre, afterBeg⟩ := ab
        dsimp only
        cases hsp2 : splitFirst endMark afterBeg with
        | none => rfl
        | some ab2 =>
          obtain ⟨mid, afterEnd⟩ := ab2
          dsimp only
          have l1 := splitFirst_some_length begMark (by decide) s pre afterBeg hsp
          have l2 := splitFirst_some_length endMark (by decide) afterBeg mid afterEnd hsp2
          have hbl : begMark.length = 12 := by decide
          have hel : endMark.length = 10 := by decide
          rw [ih afterEnd g (by omega) (by omega)]

/-- Derived unfolding of `findBlocks`. -/
theorem findBlocks_eq (s : List Char) :
    findBlocks s =
      match splitFirst begMark s with
      | none => []
      | some (_, afterBeg) =>
        match splitFirst endMark afterBeg with
        | none => []
        | some (mid, afterEnd) => (begMark ++ mid ++ endMark) :: findBlocks afterEnd := by
  show findBlocksF (s.length + 1) s = _
  simp only [findBlocksF]
  cases hsp : splitFirst begMark s with
  | none => rfl
  | some ab =>
    obtain ⟨pre, afterBeg⟩ := ab
    dsimp only
    cases hsp2 : splitFirst endMark afterBeg with
    | none => rfl
    | some ab2 =>
      obtain ⟨mid, afterEnd⟩ := ab2
      dsimp only
      have l1 := splitFirst_some_length begMark (by decide) s pre afterBeg hsp
      have l2 := splitFirst_some_length endMark (by decide) afterBeg mid afterEnd hsp2
      have hbl : begMark.length = 12 := by decide
      have hel : endMark.length = 10 := by decide
      rw [findBlocksF_irrel s.length afterEnd (afterEnd.length + 1) (by omega) (by omega)]
      rfl

theorem glueLines_cons (l : List Char) (ls : List (List Char)) (z : List Char) :
    glueLines (l :: ls) z = l ++ '\r' :: '\n' :: glueLines ls z := rfl

theorem glueLines_append_right (ls : List (List Char)) (x y : List Char) :
    glueLines ls x ++ y = glueLines ls (x ++ y) := by
  induction ls with
  | nil => rfl
  | cons l t ih =>
    rw [glueLines_cons, glueLines_cons, List.append_assoc]
    simp only [List.cons_append]
    rw [ih]

theorem docOf_glue :
    ∀ (a b : List (List Char)), b ≠ [] →
      List.intercalate CRLF (a ++ b) = glueLines a (List.intercalate CRLF b) := by
  intro a
  induction a with
  | nil => intro b _; rfl
  | cons x a' ih =>
    intro b hb
    have hab : a' ++ b ≠ [] := by
      intro hc
      exact hb (List.append_eq_nil.mp hc).2
    rw [List.cons_append, intercalate_cons_ne CRLF x (a' ++ b) hab, ih b hb, glueLines_cons]
    rw [List.append_assoc]
    rfl

theorem findBlocks_skip (l d : List Char) (hl : containsSub begMark l = false) :
    findBlocks (l ++ '\r' :: '\n' :: d) = findBlocks d := by
  rw [findBlocks_eq (l ++ '\r' :: '\n' :: d), findBlocks_eq d]
  rw [sf_skip begMark (by decide) (by decide) (by decide) l d hl]
  cases hsp : splitFirst begMark d with
  | none => rfl
  | some ab =>
    obtain ⟨a, aB⟩ := ab
    rfl

theorem splitFirst_end_glue :
    ∀ (mid : List (List Char)), (∀ m ∈ mid, containsSub endMark m = false) →
      ∀ w, splitFirst endMark (glueLines mid (endMark ++ w)) =
        some (glueLines mid [], w) := by
  intro mid
  induction mid with
  | nil =>
    intro _ w
    exact splitFirst_self endMark w (by decide)
  | cons m mid' ih =>
    intro hmid w
    rw [glueLines_cons]
    rw [sf_skip endMark (by decide) (by decide) (by decide) m _ (hmid m (by simp))]
    rw [ih (fun x hx => hmid x (by simp [hx])) w]
    rfl

theorem WFDoc_nil_inv {bs : List (List (List Char))} (h : WFDoc [] bs) : bs = [] := by
  cases h
  rfl

theorem block_join_eq (mid : List (List Char)) :
    List.intercalate CRLF (begMark :: (mid ++ [endMark])) =
      begMark ++ glueLines ([] :: mid) [] ++ endMark := by
  rw [show (begMark :: (mid ++ [endMark])) = (begMark :: mid) ++ [endMark] from by simp]
  rw [docOf_glue (begMark :: mid) [endMark] (by simp), intercalate_singleton_str]
  rw [glueLines_cons]
  rw [List.append_assoc]
  rw [show glueLines ([] :: mid) [] = '\r' :: '\n' :: glueLines mid [] from rfl]
  simp only [List.cons_append]
  rw [glueLines_append_right]
  rfl

/-- On marker-clean well-formed documents the validator's regex extraction
returns exactly the CRLF-joined blocks. -/
theorem findBlocks_WFDoc {lines : List (List Char)} {bs : List (List (List Char))}
    (h : WFDoc lines bs) :
    findBlocks (List.intercalate CRLF lines) = bs.map (List.intercalate CRLF) := by
  induction h with
  | nil => rfl
  | @junk l rest bs2 hb he hsub ih =>
    cases rest with
    | nil =>
      rw [WFDoc_nil_inv hsub]
      rw [intercalate_singleton_str]
      rw [findBlocks_eq, splitFirst_none_of_not_contains begMark l hb]
      rfl
    | cons r t =>
      rw [intercalate_cons_ne CRLF l (r :: t) (by simp), List.append_assoc]
      rw [show CRLF ++ List.intercalate CRLF (r :: t) =
        '\r' :: '\n' :: List.intercalate CRLF (r :: t) from rfl]
      rw [findBlocks_skip l _ hb]
      exact ih
  | @block mid rest bs2 hmid hsub ih =>
    have hmidfree : ∀ m ∈ ([] :: mid), containsSub endMark m = false := by
      intro m hm
      rcases List.mem_cons.mp hm with h1 | h2
      · subst h1; decide
      · exact (hmid m h2).2
    have htail : mid ++ endMark :: rest ≠ [] := by
      cases mid <;> simp
    have hpre : List.intercalate CRLF (begMark :: (mid ++ endMark :: rest)) =
        begMark ++ glueLines ([] :: mid) (List.intercalate CRLF (endMark :: rest)) := by
      rw [intercalate_cons_ne CRLF begMark (mid ++ endMark :: rest) htail]
      rw [docOf_glue mid (endMark :: rest) (by simp)]
      rw [List.append_assoc]
      rfl
    cases rest with
    | nil =>
      rw [WFDoc_nil_inv hsub]
      rw [hpre, intercalate_singleton_str]
      have hsf := splitFirst_end_glue ([] :: mid) hmidfree []
      rw [List.append_nil] at hsf
      rw [findBlocks_eq, splitFirst_self begMark _ (by decide)]
      dsimp only
      rw [hsf]
      dsimp only
      rw [show findBlocks [] = [] from rfl]
      rw [List.map_cons, List.map_nil]
      congr 1
      exact (block_join_eq mid).symm
    | cons r t =>
      rw [hpre, intercalate_cons_ne CRLF endMark (r :: t) (by simp), List.append_assoc]
      rw [show (CRLF ++ List.intercalate CRLF (r :: t)) =
        '\r' :: '\n' :: List.intercalate CRLF (r :: t) from rfl]
      have hsf := splitFirst_end_glue ([] :: mid) hmidfree
        ('\r' :: '\n' :: List.intercalate CRLF (r :: t))
      rw [findBlocks_eq, splitFirst_self begMark _ (by decide)]
      dsimp only
      rw [hsf]
      dsimp only
      have hskip : findBlocks ('\r' :: '\n' :: List.intercalate CRLF (r :: t)) =
          findBlocks (List.intercalate CRLF (r :: t)) := by
        simpa using findBlocks_skip [] (List.intercalate CRLF (r :: t)) (by decide)
      rw [hskip, ih, List.map_cons]
      congr 1
      exact (block_join_eq mid).symm

theorem pyCountF_irrel (pat : List Char) :
    ∀ (f1 : Nat) (s : List Char) (f2 : Nat), s.length ≤ f1 → s.length ≤ f2 →
      pyCountF pat f1 s = pyCountF pat f2 s := by
  intro f1
  induction f1 with
  | zero =>
    intro s f2 h1 _
    have hs : s = [] := List.length_eq_zero.mp (Nat.le_zero.mp h1)
    subst hs
    cases f2 <;> rfl
  | succ f ih =>
    intro s f2 h1 h2
    cases s with
    | nil => cases f2 <;> rfl
    | cons c rest =>
      cases f2 with
      | zero => simp at h2
      | succ g =>
        simp only [List.length_cons, Nat.succ_le_succ_iff] at h1 h2
        simp only [pyCountF]
        by_cases hp : pat ≠ [] ∧ startsWith pat (c :: rest)
        · rw [if_pos hp, if_pos hp]
          rw [ih _ g (by rw [List.length_drop]; omega) (by rw [List.length_drop]; omega)]
        · rw [if_neg hp, if_neg hp]
          rw [ih rest g h1 h2]

/-- Derived unfolding of `pyCount` on a cons cell. -/
theorem pyCount_cons (pat : List Char) (c : Char) (rest : List Char) :
    pyCount pat (c :: rest) =
      if pat ≠ [] ∧ startsWith pat (c :: rest) = true then
        1 + pyCount pat (List.drop (pat.length - 1) rest)
      else pyCount pat rest := by
  show pyCountF pat (rest.length + 1) (c :: rest) = _
  simp only [pyCountF]
  by_cases hp : pat ≠ [] ∧ startsWith pat (c :: rest) = true
  · rw [if_pos hp, if_pos hp]
    rw [pyCountF_irrel pat rest.length _ (List.drop (pat.length - 1) rest).length
      (by rw [List.length_drop]; omega) (le_refl _)]
    rfl
  · rw [if_neg hp, if_neg hp]
    rfl

theorem pyCount_zero_of_not_contains (pat : List Char) :
    ∀ s : List Char, containsSub pat s = false → pyCount pat s = 0 := by
  intro s
  induction s with
  | nil => intro _; rfl
  | cons c rest ih =>
    intro h
    simp only [containsSub, Bool.or_eq_false_iff] at h
    obtain ⟨h1, h2⟩ := h
    rw [pyCount_cons, if_neg (fun hc => Bool.false_ne_true (h1 ▸ hc.2))]
    exact ih h2

theorem pyCount_skip (pat : List Char) (hp : pat ≠ []) (hcr : '\r' ∉ pat) (hlf : '\n' ∉ pat) :
    ∀ (l z : List Char), containsSub pat l = false →
      pyCount pat (l ++ '\r' :: '\n' :: z) = pyCount pat z := by
  intro l
  induction l with
  | nil =>
    intro z _
    have s1 : startsWith pat ('\r' :: '\n' :: z) = false := startsWith_head_false pat '\r' _ hp hcr
    have s2 : startsWith pat ('\n' :: z) = false := startsWith_head_false pat '\n' _ hp hlf
    rw [List.nil_append, pyCount_cons, if_neg (fun hc => Bool.false_ne_true (s1 ▸ hc.2)),
      pyCount_cons, if_neg (fun hc => Bool.false_ne_true (s2 ▸ hc.2))]
  | cons x l' ih =>
    intro z hl
    simp only [containsSub, Bool.or_eq_false_iff] at hl
    obtain ⟨h1, h2⟩ := hl
    have hsw : startsWith pat ((x :: l') ++ '\r' :: '\n' :: z) = false := by
      rw [← Bool.not_eq_true, startsWith_iff]
      intro hpre
      have hpre2 : pat <+: x :: l' :=
        (prefix_append_stop '\r' pat (x :: l') ('\n' :: z) hcr).mp hpre
      rw [← startsWith_iff, h1] at hpre2
      exact Bool.false_ne_true hpre2
    rw [List.cons_append, pyCount_cons,
      if_neg (fun hc => Bool.false_ne_true ((List.cons_append x l' _ ▸ hsw) ▸ hc.2))]
    exact ih z h2

theorem pyCount_cons_self (pat w : List Char) (hp : pat ≠ []) :
    pyCount pat (pat ++ w) = 1 + pyCount pat w := by
  cases pat with
  | nil => exact absurd rfl hp
  | cons q p' =>
    rw [List.cons_append, pyCount_cons,
      if_pos ⟨by simp, (startsWith_iff _ _).mpr
        (by rw [← List.cons_append]; exact List.prefix_append _ w)⟩]
    congr 1
    have hl : (q :: p').length - 1 = p'.length := by simp
    rw [hl, List.drop_left]

theorem pyCount_glue (pat : List Char) (hp : pat ≠ []) (hcr : '\r' ∉ pat) (hlf : '\n' ∉ pat) :
    ∀ (ls : List (List Char)), (∀ m ∈ ls, containsSub pat m = false) →
      ∀ z, pyCount pat (glueLines ls z) = pyCount pat z := by
  intro ls
  induction ls with
  | nil => intro _ z; rfl
  | cons m ls' ih =>
    intro hls z
    rw [glueLines_cons, pyCount_skip pat hp hcr hlf m _ (hls m (by simp))]
    exact ih (fun x hx => hls x (by simp [hx])) z

/-- On marker-clean well-formed documents the begin-marker substring count
equals the number of blocks. -/
theorem pyCount_beg_WFDoc {lines : List (List Char)} {bs : List (List (List Char))}
    (h : WFDoc lines bs) :
    pyCount begMark (List.intercalate CRLF lines) = bs.length := by
  induction h with
  | nil => rfl
  | @junk l rest bs2 hb he hsub ih =>
    cases rest with
    | nil =>
      rw [WFDoc_nil_inv hsub]
      rw [intercalate_singleton_str]
      exact pyCount_zero_of_not_contains begMark l hb
    | cons r t =>
      rw [intercalate_cons_ne CRLF l (r :: t) (by simp), List.append_assoc]
      rw [show CRLF ++ List.intercalate CRLF (r :: t) =
        '\r' :: '\n' :: List.intercalate CRLF (r :: t) from rfl]
      rw [pyCount_skip begMark (by decide) (by decide) (by decide) l _ hb]
      exact ih
  | @block mid rest bs2 hmid hsub ih =>
    have hmidfree : ∀ m ∈ ([] :: mid), containsSub begMark m = false := by
      intro m hm
      rcases List.mem_cons.mp hm with h1 | h2
      · subst h1; decide
      · exact (hmid m h2).1
    have htail : mid ++ endMark :: rest ≠ [] := by
      cases mid <;> simp
    have hpre : List.intercalate CRLF (begMark :: (mid ++ endMark :: rest)) =
        begMark ++ glueLines ([] :: mid) (List.intercalate CRLF (endMark :: rest)) := by
      rw [intercalate_cons_ne CRLF begMark (mid ++ endMark :: rest) htail]
      rw [docOf_glue mid (endMark :: rest) (by simp)]
      rw [List.append_assoc]
      rfl
    rw [hpre, pyCount_cons_self begMark _ (by decide)]
    rw [pyCount_glue begMark (by decide) (by decide) (by decide) ([] :: mid) hmidfree]
    cases rest with
    | nil =>
      rw [WFDoc_nil_inv hsub]
      rw [intercalate_singleton_str]
      rw [pyCount_zero_of_not_contains begMark endMark (by decide)]
      rfl
    | cons r t =>
      rw [intercalate_cons_ne CRLF endMark (r :: t) (by simp), List.append_assoc]
      rw [show CRLF ++ List.intercalate CRLF (r :: t) =
        '\r' :: '\n' :: List.intercalate CRLF (r :: t) from rfl]
      rw [pyCount_skip begMark (by decide) (by decide) (by decide) endMark _ (by decide)]
      rw [ih]
      simp [List.length_cons]
      omega

/-- On marker-clean well-formed documents the end-marker substring count
equals the number of blocks. -/
theorem pyCount_end_WFDoc {lines : List (List Char)} {bs : List (List (List Char))}
    (h : WFDoc lines bs) :
    pyCount endMark (List.intercalate CRLF lines) = bs.length := by
  induction h with
  | nil => rfl
  | @junk l rest bs2 hb he hsub ih =>
    cases rest with
    | nil =>
      rw [WFDoc_nil_inv hsub]
      rw [intercalate_singleton_str]
      exact pyCount_zero_of_not_contains endMark l he
    | cons r t =>
      rw [intercalate_cons_ne CRLF l (r :: t) (by simp), List.append_assoc]
      rw [show CRLF ++ List.intercalate CRLF (r :: t) =
        '\r' :: '\n' :: List.intercalate CRLF (r :: t) from rfl]
      rw [pyCount_skip endMark (by decide) (by decide) (by decide) l _ he]
      exact ih
  | @block mid rest bs2 hmid hsub ih =>
    have hmidfree : ∀ m ∈ mid, containsSub endMark m = false := fun m hm => (hmid m hm).2
    have htail : mid ++ endMark :: rest ≠ [] := by
      cases mid <;> simp
    have hpre : List.intercalate CRLF (begMark :: (mid ++ endMark :: rest)) =
        begMark ++ '\r' :: '\n' :: glueLines mid (List.intercalate CRLF (endMark :: rest)) := by
      rw [intercalate_cons_ne CRLF begMark (mid ++ endMark :: rest) htail]
      rw [docOf_glue mid (endMark :: rest) (by simp)]
      rw [List.append_assoc]
      rfl
    rw [hpre]
    rw [pyCount_skip endMark (by decide) (by decide) (by decide) begMark _ (by decide)]
    rw [pyCount_glue endMark (by decide) (by decide) (by decide) mid hmidfree]
    cases rest with
    | nil =>
      rw [WFDoc_nil_inv hsub]
      rw [intercalate_singleton_str]
      have hself := pyCount_cons_self endMark [] (by decide)
      rw [List.append_nil] at hself
      rw [hself]
      rfl
    | cons r t =>
      rw [intercalate_cons_ne CRLF endMark (r :: t) (by simp), List.append_assoc]
      rw [show CRLF ++ List.intercalate CRLF (r :: t) =
        '\r' :: '\n' :: List.intercalate CRLF (r :: t) from rfl]
      rw [pyCount_cons_self endMark _ (by decide)]
      have hskip := pyCount_skip endMark (by decide) (by decide) (by decide) []
        (List.intercalate CRLF (r :: t)) (by decide)
      rw [List.nil_append] at hskip
      rw [hskip, ih]
      simp [List.length_cons]
      omega

/-- C9 (amended): for documents in which the marker strings occur only as
whole lines and blocks are properly terminated (every builder-produced
document has this shape), the validator's substring/regex extraction is
equivalent to the line-oriented scan: the regex blocks are exactly the
CRLF-joined scan blocks, and the begin/end substring counts both equal the
number of blocks found by the scan. -/
theorem c9_validator_scan_agreement {lines : List (List Char)}
    {bs : List (List (List Char))} (h : WFDoc lines bs) :
    findBlocks (List.intercalate CRLF lines) = bs.map (List.intercalate CRLF) ∧
    pyCount begMark (List.intercalate CRLF lines) = bs.length ∧
    pyCount endMark (List.intercalate CRLF lines) = bs.length ∧
    scanVE lines false [] = bs := by
  refine ⟨findBlocks_WFDoc h, pyCount_beg_WFDoc h, pyCount_end_WFDoc h, ?_⟩
  have hwf := WFDoc_to_WF h
  have := scanVE_wf_extra hwf [] (by simp) []
  rwa [List.append_nil] at this

/-- Witness for C9 on a concrete marker-clean document with one block. -/
theorem c9_validator_scan_agreement_witness :
    findBlocks (List.intercalate CRLF
        [S "BEGIN:VCALENDAR", S "BEGIN:VEVENT", S "SUMMARY:a", S "END:VEVENT",
         S "END:VCALENDAR"]) =
      [[S "BEGIN:VEVENT", S "SUMMARY:a", S "END:VEVENT"]].map (List.intercalate CRLF) ∧
    pyCount begMark (List.intercalate CRLF
        [S "BEGIN:VCALENDAR", S "BEGIN:VEVENT", S "SUMMARY:a", S "END:VEVENT",
         S "END:VCALENDAR"]) = 1 ∧
    pyCount endMark (List.intercalate CRLF
        [S "BEGIN:VCALENDAR", S "BEGIN:VEVENT", S "SUMMARY:a", S "END:VEVENT",
         S "END:VCALENDAR"]) = 1 ∧
    scanVE [S "BEGIN:VCALENDAR", S "BEGIN:VEVENT", S "SUMMARY:a", S "END:VEVENT",
        S "END:VCALENDAR"] false [] =
      [[S "BEGIN:VEVENT", S "SUMMARY:a", S "END:VEVENT"]] := by
  have d0 : WFDoc [S "END:VCALENDAR"] [] := WFDoc.junk (by decide) (by decide) WFDoc.nil
  have d1 : WFDoc (begMark :: ([S "SUMMARY:a"] ++ endMark :: [S "END:VCALENDAR"]))
      ((begMark :: ([S "SUMMARY:a"] ++ [endMark])) :: []) :=
    WFDoc.block (by decide) d0
  have d2 : WFDoc (S "BEGIN:VCALENDAR" :: (begMark :: ([S "SUMMARY:a"] ++
      endMark :: [S "END:VCALENDAR"])))
      ((begMark :: ([S "SUMMARY:a"] ++ [endMark])) :: []) :=
    WFDoc.junk (by decide) (by decide) d1
  exact c9_validator_scan_agreement d2

/-- Counterexample to C9 as stated: on a document whose begin marker sits
inside a longer line, the validator's substring/regex extraction finds a
block and counts a begin marker while the line-oriented scan finds
nothing. -/
theorem c9_validator_scan_counterexample :
    findBlocks (S "aBEGIN:VEVENT\r\nEND:VEVENT") = [S "BEGIN:VEVENT\r\nEND:VEVENT"] ∧
    extract_vevents (S "aBEGIN:VEVENT\r\nEND:VEVENT") = [] ∧
    pyCount begMark (S "aBEGIN:VEVENT\r\nEND:VEVENT") = 1 ∧
    (scanVE (pyLines (S "aBEGIN:VEVENT\r\nEND:VEVENT")) false []).length = 0 := by
  refine ⟨by decide, by decide, by decide, by decide⟩
